import Mathlib

/-!
Verification of the AntCraft deterministic lockstep simulation core.

This file is a shallow embedding, in Lean 4, of the parts of the AntCraft
source relevant to the verified properties: the command model
(`src/simulation/commands.py`), the Bresenham damage/income distribution
(`src/simulation/combat.py`, `src/simulation/hive.py`), the state hash
serialization (`src/simulation/state.py`), the wire codec
(`src/networking/serialization.py`), combat decay/death ordering
(`src/simulation/combat.py`), ant spawning (`src/simulation/hive.py`),
harvesting (`src/simulation/harvest.py`), A* pathfinding
(`src/simulation/pathfinding.py`) and map generation
(`src/simulation/tilemap.py`).

Python integers are modelled as `Int` (or `Nat` where the source value is
a count that is always nonnegative), Python lists as `List`, Python dicts
as association lists updated in place, and fallible operations (such as
`int.to_bytes` and `struct.pack`, which raise on out-of-range values) as
`Option`-returning functions where `none` models the raised exception.
-/

set_option maxRecDepth 2000

/-! ## Configuration constants (`src/config.py`) -/

def TICK_RATE : ℕ := 10
def MILLI_TILES_PER_TILE : ℤ := 1000
def ANT_SPAWN_COST : ℤ := 10
def ANT_SPAWN_COOLDOWN : ℤ := 20
def CORPSE_DECAY_TICKS : ℤ := 150
def ANT_CORPSE_JELLY : ℤ := 5
def APHID_JELLY : ℤ := 3
def BEETLE_JELLY : ℤ := 25
def MANTIS_JELLY : ℤ := 80
def ATTACK_RANGE : ℤ := 1
def HARVEST_RANGE : ℤ := 2
def HARVEST_RATE : ℕ := 5
def ANT_CARRY_CAPACITY : ℤ := 10
def HIVE_PASSIVE_INCOME : ℕ := 2

/-! ## Command model (`src/simulation/commands.py`)

`CommandType` is embedded exactly as the `IntEnum` in the source defines
it: seven members, `MOVE = 1` through `ATTACK = 7`.  (The rest of the
repository — `tick.py`, `hive.py`, the input handler and the test suite —
refers to an eighth member `MORPH_SPITTER` that this enum does not
define.) -/

inductive CommandType where
  | MOVE
  | STOP
  | HARVEST
  | SPAWN_ANT
  | MERGE_QUEEN
  | FOUND_HIVE
  | ATTACK
deriving DecidableEq

/-- The integer value of each enum member, as assigned in the source. -/
def CommandType.val : CommandType → ℤ
  | .MOVE => 1
  | .STOP => 2
  | .HARVEST => 3
  | .SPAWN_ANT => 4
  | .MERGE_QUEEN => 5
  | .FOUND_HIVE => 6
  | .ATTACK => 7

/-- The complete list of members of the `CommandType` enum, in source order. -/
def CommandType.members : List CommandType :=
  [.MOVE, .STOP, .HARVEST, .SPAWN_ANT, .MERGE_QUEEN, .FOUND_HIVE, .ATTACK]

/-- A single player action (`Command` frozen dataclass). -/
structure Command where
  command_type : CommandType
  player_id : ℤ
  tick : ℤ
  entity_ids : List ℤ := []
  target_x : ℤ := 0
  target_y : ℤ := 0
  target_entity_id : ℤ := 0
deriving DecidableEq

/-- `Command.sort_key`: deterministic ordering key (player, type, tick). -/
def Command.sort_key (c : Command) : ℤ × ℤ × ℤ :=
  (c.player_id, c.command_type.val, c.tick)

/-- Lexicographic comparison of two sort keys, i.e. Python tuple `<=`. -/
def keyLex (a b : ℤ × ℤ × ℤ) : Prop :=
  a.1 < b.1 ∨ (a.1 = b.1 ∧ (a.2.1 < b.2.1 ∨ (a.2.1 = b.2.1 ∧ a.2.2 ≤ b.2.2)))

instance : DecidableRel keyLex := fun a b => by
  unfold keyLex; infer_instance

/-- The ordering relation used by `pop_tick`'s `cmds.sort(key=...)`. -/
def cmdLe (a b : Command) : Prop := keyLex a.sort_key b.sort_key

instance : DecidableRel cmdLe := fun a b => by
  unfold cmdLe; infer_instance

/-- Model of `cmds.sort(key=lambda c: c.sort_key())` in
`CommandQueue.pop_tick`. Python `list.sort` is a stable comparison sort on
the key tuples; a stable sort's output is uniquely determined by the key
order and the input order, so the stable `List.insertionSort` over the
lexicographic key relation computes the identical list. -/
def sortCommands (l : List Command) : List Command :=
  List.insertionSort cmdLe l

/-- Model of `CommandQueue.add` restricted to one tick bucket: append the
command unless an equal command is already present (deduplication). -/
def addCommand (l : List Command) (c : Command) : List Command :=
  if c ∈ l then l else l ++ [c]

/-- Model of `CommandQueue.pop_tick` on one tick bucket: return the stored
commands sorted by `sort_key`. -/
def pop_tick (l : List Command) : List Command := sortCommands l

/-! ## Bresenham damage / income distribution -/

/-- `_damage_this_tick` from `src/simulation/combat.py`: distribute `dps`
across ticks using Bresenham-style integer math. -/
def damage_this_tick (dps : ℕ) (tick : ℕ) : ℕ :=
  let t := tick % TICK_RATE
  (dps * (t + 1)) / TICK_RATE - (dps * t) / TICK_RATE

/-- `_income_this_tick` from `src/simulation/hive.py` (same formula). -/
def income_this_tick (income_per_sec : ℕ) (tick : ℕ) : ℕ :=
  let t := tick % TICK_RATE
  (income_per_sec * (t + 1)) / TICK_RATE - (income_per_sec * t) / TICK_RATE

/-- Two concrete MOVE commands of the same player for the same tick that
differ only in their target; they share a `sort_key`. -/
def cmdMoveA : Command :=
  { command_type := .MOVE, player_id := 0, tick := 5, entity_ids := [1],
    target_x := 100, target_y := 0, target_entity_id := 0 }

/-- Companion command to `cmdMoveA` with a different target. -/
def cmdMoveB : Command :=
  { command_type := .MOVE, player_id := 0, tick := 5, entity_ids := [1],
    target_x := 200, target_y := 0, target_entity_id := 0 }

/-! ## Tile map (`src/simulation/tilemap.py`) -/

inductive TileType where
  | DIRT
  | ROCK
deriving DecidableEq

/-- `TileMap`: a flat, row-major grid of tiles (`tiles[y * width + x]`),
modelled as a total function on flat indices. -/
structure TileMap where
  width : ℕ
  height : ℕ
  tiles : ℕ → TileType
  start_positions : List (ℤ × ℤ) := []
  hive_site_positions : List (ℤ × ℤ) := []

/-- `TileMap.get_tile`: out-of-bounds reads return `ROCK`. -/
def TileMap.get_tile (tm : TileMap) (x y : ℤ) : TileType :=
  if 0 ≤ x ∧ x < tm.width ∧ 0 ≤ y ∧ y < tm.height then
    tm.tiles (y.toNat * tm.width + x.toNat)
  else
    TileType.ROCK

/-- `TileMap.set_tile`: out-of-bounds writes are ignored. -/
def TileMap.set_tile (tm : TileMap) (x y : ℤ) (t : TileType) : TileMap :=
  if 0 ≤ x ∧ x < tm.width ∧ 0 ≤ y ∧ y < tm.height then
    { tm with tiles := fun i =>
        if i = y.toNat * tm.width + x.toNat then t else tm.tiles i }
  else
    tm

/-- `TileMap.is_walkable`: `DIRT` is walkable, `ROCK` is not. -/
def TileMap.is_walkable (tm : TileMap) (x y : ℤ) : Bool :=
  match tm.get_tile x y with
  | TileType.DIRT => true
  | TileType.ROCK => false

/-- An all-dirt map, used for concrete witness states. -/
def openMap (w h : ℕ) : TileMap :=
  { width := w, height := h, tiles := fun _ => TileType.DIRT }

/-! ## Entities and game state (`src/simulation/state.py`)

`Entity` is embedded with the fields of the `Entity` dataclass in
`state.py` plus the four fields `sight`, `attack_range`,
`target_entity_id` and `cooldown`, which every simulation module
(`tick.py`, `hive.py`, `harvest.py`) reads and writes and which the spec
documents in its data model, but which the snapshot's `state.py`
dataclass omits; they are modelled from the spec's field list (sight and
cooldown default 0, attack_range default 1, target-entity sentinel -1). -/

inductive EntityType where
  | ANT
  | QUEEN
  | HIVE
  | HIVE_SITE
  | CORPSE
  | APHID
  | BEETLE
  | MANTIS
deriving DecidableEq

/-- Integer value of each `EntityType` member (`IntEnum` values 0–7). -/
def EntityType.val : EntityType → ℤ
  | .ANT => 0
  | .QUEEN => 1
  | .HIVE => 2
  | .HIVE_SITE => 3
  | .CORPSE => 4
  | .APHID => 5
  | .BEETLE => 6
  | .MANTIS => 7

inductive EntityState where
  | IDLE
  | MOVING
  | ATTACKING
  | HARVESTING
  | FOUNDING
deriving DecidableEq

/-- Integer value of each `EntityState` member (`IntEnum` values 0–4). -/
def EntityState.val : EntityState → ℤ
  | .IDLE => 0
  | .MOVING => 1
  | .ATTACKING => 2
  | .HARVESTING => 3
  | .FOUNDING => 4

structure Entity where
  entity_id : ℤ
  entity_type : EntityType := .ANT
  player_id : ℤ
  x : ℤ
  y : ℤ
  target_x : ℤ
  target_y : ℤ
  speed : ℤ := 400
  hp : ℤ := 20
  max_hp : ℤ := 20
  damage : ℤ := 0
  state : EntityState := .IDLE
  path : List (ℤ × ℤ) := []
  carrying : ℤ := 0
  jelly_value : ℤ := 0
  sight : ℤ := 0
  attack_range : ℤ := 1
  target_entity_id : ℤ := -1
  cooldown : ℤ := 0
deriving DecidableEq

/-- `Entity.is_moving`: position differs from target. -/
def Entity.is_moving (e : Entity) : Bool :=
  decide (e.x ≠ e.target_x ∨ e.y ≠ e.target_y)

/-- `GameState`: the complete simulation state.  `player_jelly` is a
Python dict modelled as an insertion-ordered association list. -/
structure GameState where
  tick : ℕ := 0
  entities : List Entity := []
  rng_state : ℕ := 0
  next_entity_id : ℤ := 0
  game_over : Bool := false
  winner : ℤ := -1
  player_jelly : List (ℤ × ℤ) := []
  tilemap : TileMap := openMap 0 0

/-- `dict.get(k, 0)` on an association list: value of the first entry with
key `k`, defaulting to `0`. -/
def dictGet (d : List (ℤ × ℤ)) (k : ℤ) : ℤ :=
  match d.find? (fun p => p.1 == k) with
  | some p => p.2
  | none => 0

/-- `d[k] = v` on an association list: overwrite the first entry with key
`k`, or append a new entry. -/
def dictSet : List (ℤ × ℤ) → ℤ → ℤ → List (ℤ × ℤ)
  | [], k, v => [(k, v)]
  | p :: rest, k, v =>
    if p.1 = k then (k, v) :: rest else p :: dictSet rest k v

/-- Sum of all values of an association list (total jelly of all players
present in the dict). -/
def dictSum (d : List (ℤ × ℤ)) : ℤ :=
  (d.map (fun p => p.2)).sum

/-- `GameState.get_entity`: first entity with the given id, or `none`. -/
def get_entity (s : GameState) (eid : ℤ) : Option Entity :=
  s.entities.find? (fun e => e.entity_id == eid)

/-- Mutation through the object reference returned by `get_entity`:
update the first list element satisfying the predicate. -/
def updateFirst {α : Type} (p : α → Bool) (f : α → α) : List α → List α
  | [] => []
  | a :: rest => if p a then f a :: rest else a :: updateFirst p f rest

/-- Mutation of the entity at a fixed list position (the object being
iterated over in a `for` loop). -/
def updateIdx {α : Type} (l : List α) (i : ℕ) (f : α → α) : List α :=
  match l[i]? with
  | some a => l.set i (f a)
  | none => l

/-- Every entity of `l₁` has its id present in `l₂` — used to track that
a pass neither invents nor renames entities. -/
def sameIds (l₁ l₂ : List Entity) : Prop :=
  ∀ e ∈ l₁, ∃ e₀ ∈ l₂, e₀.entity_id = e.entity_id

/-! ## Byte-level serialization

`int.to_bytes(length, "big")` and `struct.pack` raise (`OverflowError` /
`struct.error`) when the value does not fit; `none` models the exception.
-/

/-- Big-endian byte list of a nonnegative integer, fixed width. -/
def natToBytesBE (n : ℕ) (len : ℕ) : List ℕ :=
  (List.range len).map (fun i => n / 256 ^ (len - 1 - i) % 256)

/-- `int.to_bytes(len, "big", signed=signed)` (also `struct.pack` of a
fixed-width big-endian integer field): `none` when the value is out of
range for the width. -/
def toBytesBE (v : ℤ) (len : ℕ) (signed : Bool) : Option (List ℕ) :=
  if signed then
    if -(2 ^ (8 * len - 1)) ≤ v ∧ v < 2 ^ (8 * len - 1) then
      some (natToBytesBE (v % 2 ^ (8 * len)).toNat len)
    else none
  else
    if 0 ≤ v ∧ v < 2 ^ (8 * len) then
      some (natToBytesBE v.toNat len)
    else none

/-- Sequence a list of fallible byte chunks, concatenating the results;
any failed chunk fails the whole serialization (the first raise aborts
the Python call). -/
def seqBytes : List (Option (List ℕ)) → Option (List ℕ)
  | [] => some []
  | o :: rest => do
    let b ← o
    let r ← seqBytes rest
    return b ++ r

/-! ## State hash (`GameState.compute_hash`, `src/simulation/state.py`)

`compute_hash` feeds the serialized fields below, in this order, into
SHA-256 and returns the 32-byte digest.  The digest itself is opaque
here; `hashInput` is the exact byte string fed to it, and `compute_hash`
is defined (returns a digest) precisely when `hashInput` is `some`.

Every per-entity field is serialized with `signed=True` only for `x`,
`y`, `target_x` and `target_y`; in particular `player_id` is serialized
as an unsigned 4-byte field. -/

/-- The 14 serialized chunks of one entity, in source order. -/
def entityFieldBytes (e : Entity) : List (Option (List ℕ)) :=
  [toBytesBE e.entity_id 4 false,
   toBytesBE e.entity_type.val 1 false,
   toBytesBE e.player_id 4 false,
   toBytesBE e.x 4 true,
   toBytesBE e.y 4 true,
   toBytesBE e.target_x 4 true,
   toBytesBE e.target_y 4 true,
   toBytesBE e.speed 4 false,
   toBytesBE e.hp 4 false,
   toBytesBE e.max_hp 4 false,
   toBytesBE e.damage 4 false,
   toBytesBE e.state.val 1 false,
   toBytesBE e.carrying 4 false,
   toBytesBE e.jelly_value 4 false]

/-- The full byte string `compute_hash` feeds into SHA-256: tick, rng,
entity count, then each entity's fields in id order. -/
def hashInput (s : GameState) : Option (List ℕ) :=
  seqBytes ([toBytesBE s.tick 4 false,
             toBytesBE s.rng_state 4 false,
             toBytesBE s.entities.length 4 false] ++
    s.entities.flatMap entityFieldBytes)

/-- A corpse entity: `player_id = -1`, as every corpse has (wildlife,
unclaimed hive sites and corpses are all owned by the sentinel
`NEUTRAL = -1`). -/
def corpseEntity : Entity :=
  { entity_id := 0, entity_type := .CORPSE, player_id := -1,
    x := 5500, y := 5500, target_x := 5500, target_y := 5500,
    speed := 0, hp := 150, max_hp := 150, damage := 0, jelly_value := 5 }

/-- A game state holding the single corpse above. -/
def stateWithCorpse : GameState :=
  { tick := 3, rng_state := 7, next_entity_id := 1,
    entities := [corpseEntity] }

/-! ## Wire codec (`src/networking/serialization.py`)

`encode_commands` packs, per command, `CMD_HEADER = "!BBIH"` (kind u8,
player u8, tick u32, n_entities u16), then each entity id as `"!I"`, then
`CMD_TARGET = "!iiI"` (target_x i32, target_y i32, target_entity_id
u32).  The whole payload is prefixed with `"!I"` tick and `"!H"` count. -/

/-- One command's bytes (`CMD_HEADER`, entity ids, `CMD_TARGET`). -/
def encodeCommand (c : Command) : Option (List ℕ) :=
  seqBytes
    ([toBytesBE c.command_type.val 1 false,
      toBytesBE c.player_id 1 false,
      toBytesBE c.tick 4 false,
      toBytesBE c.entity_ids.length 2 false] ++
     c.entity_ids.map (fun eid => toBytesBE eid 4 false) ++
     [toBytesBE c.target_x 4 true,
      toBytesBE c.target_y 4 true,
      toBytesBE c.target_entity_id 4 false])

/-- `encode_commands(commands, tick)`. -/
def encode_commands (commands : List Command) (tick : ℤ) : Option (List ℕ) :=
  seqBytes ([toBytesBE tick 4 false,
             toBytesBE commands.length 2 false] ++
    commands.map encodeCommand)

/-- `encode_commands(commands)` with the default `tick=None`: the header
tick falls back to the first command's tick, or `0`. -/
def encode_commands_default (commands : List Command) : Option (List ℕ) :=
  encode_commands commands
    (match commands with
     | [] => 0
     | c :: _ => c.tick)

/-- The HARVEST command the input handler emits for a harvest-move (no
target corpse): `target_entity_id` is the sentinel `-1`
(`src/input/handler.py`, line 196). -/
def harvestMoveCmd : Command :=
  { command_type := .HARVEST, player_id := 0, tick := 12,
    entity_ids := [4], target_x := 9500, target_y := 9500,
    target_entity_id := -1 }

/-! ## Ant spawning (`handle_spawn_ant`, `src/simulation/hive.py`)

The handler validates the targeted entity (exists, is a `HIVE`, belongs
to the issuing player, `cooldown` not positive, player jelly at least
`ANT_SPAWN_COST`); on success it deducts the cost and sets the hive's
cooldown, otherwise it returns with no change.  It never inspects the
hive's `hp`. -/

def handle_spawn_ant (s : GameState) (cmd : Command) : GameState :=
  match get_entity s cmd.target_entity_id with
  | none => s
  | some hive =>
    if hive.entity_type ≠ EntityType.HIVE then s
    else if hive.player_id ≠ cmd.player_id then s
    else if hive.cooldown > 0 then s
    else
      let jelly := dictGet s.player_jelly cmd.player_id
      if jelly < ANT_SPAWN_COST then s
      else
        { s with
          player_jelly := dictSet s.player_jelly cmd.player_id
            (jelly - ANT_SPAWN_COST),
          entities := updateFirst
            (fun e => e.entity_id == cmd.target_entity_id)
            (fun e => { e with cooldown := ANT_SPAWN_COOLDOWN })
            s.entities }

/-- A state holding a dead hive (`hp = 0`) of player 0 with `cooldown =
0`, and 50 jelly for player 0. -/
def stateWithDeadHive : GameState :=
  { next_entity_id := 1, player_jelly := [(0, 50), (1, 50)],
    entities := [{ entity_id := 0, entity_type := .HIVE, player_id := 0,
                   x := 5500, y := 5500, target_x := 5500, target_y := 5500,
                   speed := 0, hp := 0, max_hp := 200, damage := 0 }] }

/-- A SPAWN_ANT command of player 0 targeting entity 0. -/
def spawnCmd : Command :=
  { command_type := .SPAWN_ANT, player_id := 0, tick := 0,
    target_entity_id := 0 }

/-- A live hive of player 0 (`hp = 200`, `cooldown = 0`). -/
def liveHiveEntity : Entity :=
  { entity_id := 0, entity_type := .HIVE, player_id := 0,
    x := 5500, y := 5500, target_x := 5500, target_y := 5500,
    speed := 0, hp := 200, max_hp := 200, damage := 0 }

/-- A state holding the live hive above and 50 jelly for each player. -/
def stateWithLiveHive : GameState :=
  { next_entity_id := 1, player_jelly := [(0, 50), (1, 50)],
    entities := [liveHiveEntity] }

/-! ## Combat (`src/simulation/combat.py`)

`process_combat` runs, in this order: corpse decay, auto-attack, death
processing.  The source comment states the rationale: "Decay runs first
so newly created corpses aren't decayed on their first tick." -/

/-- Attack range in milli-tiles (`_ATTACK_RANGE_MT`). -/
def ATTACK_RANGE_MT : ℤ := ATTACK_RANGE * MILLI_TILES_PER_TILE

/-- Squared attack range (`_ATTACK_RANGE_SQ`). -/
def ATTACK_RANGE_SQ : ℤ := ATTACK_RANGE_MT * ATTACK_RANGE_MT

/-- `_ATTACKABLE_TYPES`: entity types that can be attacked. -/
def attackable : EntityType → Bool
  | .ANT | .QUEEN | .HIVE | .APHID | .BEETLE | .MANTIS => true
  | .HIVE_SITE | .CORPSE => false

/-- `_CORPSE_JELLY.get(entity_type, 0)`: jelly dropped as corpse. -/
def corpseJelly : EntityType → ℤ
  | .ANT => ANT_CORPSE_JELLY
  | .APHID => APHID_JELLY
  | .BEETLE => BEETLE_JELLY
  | .MANTIS => MANTIS_JELLY
  | _ => 0

/-- `_damage_this_tick` applied to an `int` DPS value; Python `//` is
floor division, i.e. `Int.fdiv`. -/
def damage_this_tick_z (dps : ℤ) (tick : ℕ) : ℤ :=
  let t : ℕ := tick % TICK_RATE
  Int.fdiv (dps * (t + 1)) (TICK_RATE : ℤ) - Int.fdiv (dps * t) (TICK_RATE : ℤ)

/-- `_is_enemy`: attackable type, different owner, and never
neutral-on-neutral. -/
def is_enemy (attacker target : Entity) : Bool :=
  if ¬attackable target.entity_type then false
  else if target.player_id = attacker.player_id then false
  else if attacker.player_id = -1 ∧ target.player_id = -1 then false
  else true

/-- The inner target-selection loop of `_auto_attack`: scan all entities
in order, keeping the nearest enemy within attack range (ties broken by
smaller entity id). -/
def bestTargetFold (attacker : Entity) (entities : List Entity) :
    Option Entity × ℤ :=
  entities.foldl
    (fun acc target =>
      if ¬is_enemy attacker target then acc
      else
        let dx := attacker.x - target.x
        let dy := attacker.y - target.y
        let dist_sq := dx * dx + dy * dy
        if dist_sq > ATTACK_RANGE_SQ then acc
        else
          match acc.1 with
          | none =>
            if dist_sq < acc.2 ∨ dist_sq = acc.2 then (some target, dist_sq)
            else acc
          | some b =>
            if dist_sq < acc.2 ∨
                (dist_sq = acc.2 ∧ target.entity_id < b.entity_id) then
              (some target, dist_sq)
            else acc)
    (none, ATTACK_RANGE_SQ + 1)

/-- One iteration of `_auto_attack`'s first pass: the attacker at list
position `i` picks a target, records the damage pair, and flips its own
`state` field. -/
def scanStep (tick : ℕ) (acc : List Entity × List (ℤ × ℤ)) (i : ℕ) :
    List Entity × List (ℤ × ℤ) :=
  match acc.1[i]? with
  | none => acc
  | some attacker =>
    if attacker.damage ≤ 0 then acc
    else if damage_this_tick_z attacker.damage tick ≤ 0 then acc
    else
      match (bestTargetFold attacker acc.1).1 with
      | some best =>
        (updateIdx acc.1 i (fun e => { e with state := .ATTACKING }),
         acc.2 ++ [(best.entity_id, damage_this_tick_z attacker.damage tick)])
      | none =>
        if attacker.state = EntityState.ATTACKING then
          (updateIdx acc.1 i (fun e => { e with state := .IDLE }), acc.2)
        else acc

/-- First pass of `_auto_attack` over all list positions. -/
def autoAttackScan (s : GameState) : List Entity × List (ℤ × ℤ) :=
  (List.range s.entities.length).foldl (scanStep s.tick) (s.entities, [])

/-- Second pass of `_auto_attack`: apply all recorded damages through
`get_entity` (first entity with the recorded id). -/
def applyAttacks (attacks : List (ℤ × ℤ)) (es : List Entity) : List Entity :=
  attacks.foldl
    (fun es td =>
      updateFirst (fun e => e.entity_id == td.1)
        (fun e => { e with hp := e.hp - td.2 }) es)
    es

/-- `_auto_attack`: two-phase — compute all attacks from the evolving
entity list, then apply all damages. -/
def auto_attack (s : GameState) : GameState :=
  { s with entities := applyAttacks (autoAttackScan s).2 (autoAttackScan s).1 }

/-- `_decay_corpses`: decrement every corpse's hp, then remove expired
corpses. -/
def decay_corpses (s : GameState) : GameState :=
  let stepped := s.entities.map
    (fun e => if e.entity_type = EntityType.CORPSE then
        { e with hp := e.hp - 1 } else e)
  let kept := stepped.filter
    (fun e => decide ¬(e.entity_type = EntityType.CORPSE ∧ e.hp ≤ 0))
  { s with entities := kept }

/-- `GameState.create_entity`: assign the next id, set the target to the
position, append, and advance the id counter. -/
def create_entity (s : GameState) (e : Entity) : GameState :=
  let ent := { e with entity_id := s.next_entity_id,
                      target_x := e.x, target_y := e.y }
  { s with entities := s.entities ++ [ent],
           next_entity_id := s.next_entity_id + 1 }

/-- Corpse creation for one dead entity in `_process_deaths`: entities
whose kind has a positive corpse value leave a corpse at their position
with the decay countdown as hp. -/
def deathStep (st : GameState) (e : Entity) : GameState :=
  if corpseJelly e.entity_type > 0 then
    create_entity st
      { entity_id := 0, entity_type := .CORPSE, player_id := -1,
        x := e.x, y := e.y, target_x := e.x, target_y := e.y,
        speed := 0, hp := CORPSE_DECAY_TICKS,
        max_hp := CORPSE_DECAY_TICKS, damage := 0,
        jelly_value := corpseJelly e.entity_type }
  else st

/-- `_process_deaths`: remove dead non-corpse, non-site entities and
create a corpse for each dead entity whose kind drops jelly. -/
def process_deaths (s : GameState) : GameState :=
  let dead := s.entities.filter
    (fun e => decide (e.hp ≤ 0 ∧ e.entity_type ≠ EntityType.CORPSE ∧
      e.entity_type ≠ EntityType.HIVE_SITE))
  let alive := s.entities.filter
    (fun e => decide ¬(e.hp ≤ 0 ∧ e.entity_type ≠ EntityType.CORPSE ∧
      e.entity_type ≠ EntityType.HIVE_SITE))
  dead.foldl deathStep { s with entities := alive }

/-- `process_combat`, in the source's order: decay, then auto-attack,
then deaths. -/
def process_combat (s : GameState) : GameState :=
  process_deaths (auto_attack (decay_corpses s))

/-- The combat pass in the order the claim (and spec §4.5 steps 8–10)
states: auto-attack, then deaths, then corpse decay.  This definition
follows the claim's words and exists only to be compared with
`process_combat`, the embedding of the source. -/
def process_combat_claimOrder (s : GameState) : GameState :=
  decay_corpses (process_deaths (auto_attack s))

/-- An ant of player 0 that is already dead (`hp = 0`). -/
def deadAnt : Entity :=
  { entity_id := 0, entity_type := .ANT, player_id := 0,
    x := 5500, y := 5500, target_x := 5500, target_y := 5500,
    speed := 400, hp := 0, max_hp := 20, damage := 0, jelly_value := 5 }

/-- A state in which `deadAnt` dies this tick. -/
def stateWithDeadAnt : GameState :=
  { next_entity_id := 1, entities := [deadAnt] }

/-- The corpse `process_combat` creates from `deadAnt` in
`stateWithDeadAnt`: full decay countdown, never decremented on its
creation tick. -/
def freshCorpse : Entity :=
  { entity_id := 1, entity_type := .CORPSE, player_id := -1,
    x := 5500, y := 5500, target_x := 5500, target_y := 5500,
    speed := 0, hp := CORPSE_DECAY_TICKS, max_hp := CORPSE_DECAY_TICKS,
    damage := 0, jelly_value := 5 }

/-! ## Map generation (`generate_map`, `src/simulation/tilemap.py`)

The generator scatters rock over the left half, smooths it with four
cellular-automaton rounds (left half only), mirrors the left half onto
the right half, rewrites the border to rock, and clears disks around the
player start position and the two hive sites (each clear also writes the
horizontally mirrored disk). -/

/-- `_lcg_next`: one LCG step, returning (new state, raw value). -/
def lcg_next (state : ℕ) : ℕ × ℕ :=
  let s := (state * 1664525 + 1013904223) % 4294967296
  (s, s)

/-- One cell of the random rock scatter (step 1): draw, then mark rock
with probability 45%. -/
def scatterStep (acc : TileMap × ℕ) (x y : ℤ) : TileMap × ℕ :=
  if (lcg_next acc.2).2 % 100 < 45 then
    (acc.1.set_tile x y TileType.ROCK, (lcg_next acc.2).1)
  else (acc.1, (lcg_next acc.2).1)

/-- The full scatter pass: rows top to bottom, left-half columns left to
right, threading the LCG state. -/
def scatterPass (half_w : ℕ) (start : TileMap × ℕ) : TileMap × ℕ :=
  (List.range start.1.height).foldl
    (fun acc (y : ℕ) =>
      (List.range half_w).foldl
        (fun acc (x : ℕ) => scatterStep acc (x : ℤ) (y : ℤ)) acc)
    start

/-- Number of rock cells among the 9 cells of the Moore neighborhood of
`(x, y)`; out-of-bounds neighbors count as rock (step 2's rule). -/
def rockNeighbors (tm : TileMap) (x y : ℕ) : ℕ :=
  ((List.range 3).flatMap (fun (i : ℕ) => (List.range 3).map
      (fun (j : ℕ) => ((i : ℤ) - 1, (j : ℤ) - 1)))).foldl
    (fun acc d =>
      let nx := (x : ℤ) + d.2
      let ny := (y : ℤ) + d.1
      if nx < 0 ∨ nx ≥ tm.width ∨ ny < 0 ∨ ny ≥ tm.height then acc + 1
      else if tm.tiles (ny.toNat * tm.width + nx.toNat) = TileType.ROCK then
        acc + 1
      else acc)
    0

/-- One cellular-automaton smoothing round (step 2): positions on the
left half (`x < (w+1)/2`, `y < h`) are recomputed from a snapshot of the
old grid — at least 5 rock cells of 9 make rock — and all other flat
indices keep their old value (`new_tiles` starts as a copy). -/
def caStep (tm : TileMap) : TileMap :=
  { tm with tiles := fun i =>
      if 0 < tm.width ∧ i % tm.width < (tm.width + 1) / 2 ∧
          i / tm.width < tm.height then
        (if rockNeighbors tm (i % tm.width) (i / tm.width) ≥ 5 then
          TileType.ROCK else TileType.DIRT)
      else tm.tiles i }

/-- One write of the mirror pass (step 3): copy flat index `y*w + x` to
`y*w + (w-1-x)` in the current grid. -/
def mirrorStep (w : ℕ) (t : ℕ → TileType) (y x : ℕ) : ℕ → TileType :=
  fun i => if i = y * w + (w - 1 - x) then t (y * w + x) else t i

/-- One row of the mirror pass: left-half columns left to right. -/
def mirrorRow (w y k : ℕ) (t : ℕ → TileType) : ℕ → TileType :=
  (List.range k).foldl (fun t x => mirrorStep w t y x) t

/-- The mirror pass: rows top to bottom, writing sequentially into the
live grid. -/
def mirrorFold (w h half_w : ℕ) (t : ℕ → TileType) : ℕ → TileType :=
  (List.range h).foldl (fun t y => mirrorRow w y half_w t) t

/-- Step 3 on a tile map. -/
def mirrorTiles (tm : TileMap) : TileMap :=
  { tm with tiles := mirrorFold tm.width tm.height ((tm.width + 1) / 2) tm.tiles }

/-- Write one constant tile value at a list of positions, in order. -/
def setTilesConst (tm : TileMap) (ps : List (ℤ × ℤ)) (v : TileType) : TileMap :=
  ps.foldl (fun t p => t.set_tile p.1 p.2 v) tm

/-- The positions written by step 4, in write order: top and bottom rows,
then left and right columns. -/
def borderPositions (w h : ℕ) : List (ℤ × ℤ) :=
  ((List.range w).flatMap
    (fun (x : ℕ) => [((x : ℤ), 0), ((x : ℤ), (h : ℤ) - 1)])) ++
  ((List.range h).flatMap
    (fun (y : ℕ) => [((0 : ℤ), (y : ℤ)), ((w : ℤ) - 1, (y : ℤ))]))

/-- Step 4: rock border around the map edges. -/
def borderize (tm : TileMap) : TileMap :=
  setTilesConst tm (borderPositions tm.width tm.height) TileType.ROCK

/-- The positions written by `_clear_symmetric`, in write order: for each
offset in the disk, the tile at the center plus the offset, then the
same offset from the mirrored center. -/
def clearPositions (w : ℕ) (cx cy : ℤ) (radius : ℕ) : List (ℤ × ℤ) :=
  ((List.range (2 * radius + 1)).flatMap
    (fun (i : ℕ) => (List.range (2 * radius + 1)).map
      (fun (j : ℕ) => ((i : ℤ) - radius, (j : ℤ) - radius)))).flatMap
    (fun d =>
      if d.2 * d.2 + d.1 * d.1 ≤ (radius : ℤ) * radius then
        [(cx + d.2, cy + d.1), ((w : ℤ) - 1 - cx + d.2, cy + d.1)]
      else [])

/-- `_clear_symmetric`: clear a disk and its horizontal mirror to dirt. -/
def clear_symmetric (tm : TileMap) (cx cy : ℤ) (radius : ℕ) : TileMap :=
  setTilesConst tm (clearPositions tm.width cx cy radius) TileType.DIRT

/-- `generate_map(seed, width, height)`: all steps in source order. -/
def generate_map (seed w h : ℕ) : TileMap :=
  let tm0 : TileMap := { width := w, height := h, tiles := fun _ => TileType.DIRT }
  let scattered := scatterPass ((w + 1) / 2) (tm0, seed % 4294967296)
  let tm2 := caStep^[4] scattered.1
  let tm3 := mirrorTiles tm2
  let tm4 := borderize tm3
  let tm5 := { tm4 with start_positions :=
    [((w / 4 : ℕ), (h / 2 : ℕ)), ((w : ℤ) - 1 - (w / 4 : ℕ), (h / 2 : ℕ))] }
  let tm6 := clear_symmetric tm5 (w / 4 : ℕ) (h / 2 : ℕ) 6
  let tm7 := { tm6 with hive_site_positions :=
    [((w / 2 : ℕ), (h / 4 : ℕ)), ((w / 2 : ℕ), (3 * h / 4 : ℕ))] }
  let tm8 := clear_symmetric tm7 (w / 2 : ℕ) (h / 4 : ℕ) 3
  clear_symmetric tm8 (w / 2 : ℕ) (3 * h / 4 : ℕ) 3

/-- Horizontal mirror symmetry of the tile grid — the map-fairness
property: every in-bounds tile equals its horizontal mirror. -/
def SymmetricMap (tm : TileMap) : Prop :=
  ∀ x y : ℕ, x < tm.width → y < tm.height →
    tm.get_tile x y = tm.get_tile ((tm.width - 1 - x : ℕ)) y

/-! ## A* pathfinding (`src/simulation/pathfinding.py`)

Deterministic 8-directional A* with cardinal cost 1000 and diagonal cost
1414, octile heuristic, lexicographic `(f, y, x)` tie-breaking, a
closed set implicit in the "popped g larger than best-known g" skip, and
parent-map reconstruction excluding the start.

The `heapq` priority queue is modelled as the multiset of its entries:
`popMin` removes a minimal entry under the lexicographic tuple order
(leftmost among equal entries).  `heapq.heappop` also returns a minimal
entry, and entries with equal tuples are identical values, so the popped
value and the remaining multiset agree with the heap's; the algorithm
observes nothing else of the queue.  The Python `while` loop is modelled
with a fuel parameter; `astarFuel` is proven large enough that the fuel
branch (`none`) is never taken. -/

def CARDINAL_COST : ℤ := 1000
def DIAGONAL_COST : ℤ := 1414

/-- The 8 neighbor directions `(dx, dy, cost)`, in source order. -/
def NEIGHBORS : List (ℤ × ℤ × ℤ) :=
  [(1, 0, CARDINAL_COST), (-1, 0, CARDINAL_COST),
   (0, 1, CARDINAL_COST), (0, -1, CARDINAL_COST),
   (1, 1, DIAGONAL_COST), (1, -1, DIAGONAL_COST),
   (-1, 1, DIAGONAL_COST), (-1, -1, DIAGONAL_COST)]

/-- `_heuristic`: octile distance scaled to the step costs. -/
def heuristic (x y gx gy : ℤ) : ℤ :=
  if |x - gx| > |y - gy| then
    |y - gy| * DIAGONAL_COST + (|x - gx| - |y - gy|) * CARDINAL_COST
  else
    |x - gx| * DIAGONAL_COST + (|y - gy| - |x - gx|) * CARDINAL_COST

/-- `dict.get` on a coordinate-keyed association list. -/
def dget {α : Type} (d : List ((ℤ × ℤ) × α)) (k : ℤ × ℤ) : Option α :=
  (d.find? (fun p => p.1 == k)).map (fun p => p.2)

/-- `d[k] = v` on a coordinate-keyed association list. -/
def dset {α : Type} : List ((ℤ × ℤ) × α) → (ℤ × ℤ) → α → List ((ℤ × ℤ) × α)
  | [], k, v => [(k, v)]
  | p :: rest, k, v =>
    if p.1 = k then (k, v) :: rest else p :: dset rest k v

/-- Open-set entries `(f, y, x, g)`, compared lexicographically. -/
def entryLt (a b : ℤ × ℤ × ℤ × ℤ) : Prop :=
  a.1 < b.1 ∨ (a.1 = b.1 ∧ (a.2.1 < b.2.1 ∨ (a.2.1 = b.2.1 ∧
    (a.2.2.1 < b.2.2.1 ∨ (a.2.2.1 = b.2.2.1 ∧ a.2.2.2 < b.2.2.2)))))

instance : DecidableRel entryLt := fun a b => by
  unfold entryLt; infer_instance

/-- The coordinate `(x, y)` of an open-set entry. -/
def nodeOf (e : ℤ × ℤ × ℤ × ℤ) : ℤ × ℤ := (e.2.2.1, e.2.1)

/-- The `g` cost of an open-set entry. -/
def gOf (e : ℤ × ℤ × ℤ × ℤ) : ℤ := e.2.2.2

/-- Leftmost minimal element of a nonempty list (head plus tail scan). -/
def minEntry (es : List (ℤ × ℤ × ℤ × ℤ)) (e : ℤ × ℤ × ℤ × ℤ) :
    ℤ × ℤ × ℤ × ℤ :=
  es.foldl (fun m x => if entryLt x m then x else m) e

/-- Remove the first occurrence of an entry. -/
def removeFirst : List (ℤ × ℤ × ℤ × ℤ) → (ℤ × ℤ × ℤ × ℤ) →
    List (ℤ × ℤ × ℤ × ℤ)
  | [], _ => []
  | a :: rest, m => if a = m then rest else a :: removeFirst rest m

/-- `heapq.heappop` on the entry multiset: remove and return a minimal
entry. -/
def popMin : List (ℤ × ℤ × ℤ × ℤ) →
    Option ((ℤ × ℤ × ℤ × ℤ) × List (ℤ × ℤ × ℤ × ℤ))
  | [] => none
  | a :: rest => some (minEntry rest a, removeFirst (a :: rest) (minEntry rest a))

/-- The mutable state of the A* search. -/
structure AState where
  open_set : List (ℤ × ℤ × ℤ × ℤ)
  g_costs : List ((ℤ × ℤ) × ℤ)
  came_from : List ((ℤ × ℤ) × (ℤ × ℤ))

/-- The neighbor guard of the relaxation loop: target walkable, and for
diagonal moves both adjacent cardinal tiles walkable (no corner
cutting). -/
def relaxable (tm : TileMap) (p : ℤ × ℤ) (d : ℤ × ℤ × ℤ) : Prop :=
  tm.is_walkable (p.1 + d.1) (p.2 + d.2.1) = true ∧
  (d.1 ≠ 0 ∧ d.2.1 ≠ 0 →
    tm.is_walkable (p.1 + d.1) p.2 = true ∧
    tm.is_walkable p.1 (p.2 + d.2.1) = true)

instance (tm : TileMap) (p : ℤ × ℤ) (d : ℤ × ℤ × ℤ) :
    Decidable (relaxable tm p d) := by
  unfold relaxable; infer_instance

/-- One neighbor relaxation for the node `(x, y)` popped with cost `g`. -/
def relaxStep (tm : TileMap) (gx gy x y g : ℤ) (st : AState)
    (d : ℤ × ℤ × ℤ) : AState :=
  if relaxable tm (x, y) d then
    if g + d.2.2 < ((dget st.g_costs (x + d.1, y + d.2.1)).getD
        (g + d.2.2 + 1)) then
      { open_set := st.open_set ++
          [(g + d.2.2 + heuristic (x + d.1) (y + d.2.1) gx gy,
            y + d.2.1, x + d.1, g + d.2.2)],
        g_costs := dset st.g_costs (x + d.1, y + d.2.1) (g + d.2.2),
        came_from := dset st.came_from (x + d.1, y + d.2.1) (x, y) }
    else st
  else st

/-- Path reconstruction: walk the parent map from `c` back to the start,
collecting nodes in visit order and reversing at the end; the start is
excluded.  A missing parent entry (Python `KeyError`) gives `none`; the
invariants rule it out. -/
def walkBack (cf : List ((ℤ × ℤ) × (ℤ × ℤ))) (sx sy : ℤ) :
    ℕ → (ℤ × ℤ) → List (ℤ × ℤ) → Option (List (ℤ × ℤ))
  | 0, _, _ => none
  | fuel + 1, c, acc =>
    if c = (sx, sy) then some acc.reverse
    else
      match dget cf c with
      | none => none
      | some q => walkBack cf sx sy fuel q (acc ++ [c])

/-- The main A* loop.  Each iteration pops a minimal entry; the goal
test runs before the stale-entry skip, exactly as in the source. -/
def astarLoop (tm : TileMap) (sx sy gx gy : ℤ) :
    ℕ → AState → Option (List (ℤ × ℤ))
  | 0, _ => none
  | fuel + 1, st =>
    match popMin st.open_set with
    | none => some []
    | some (e, rest) =>
      if nodeOf e = (gx, gy) then
        walkBack st.came_from sx sy
          (((dget st.g_costs (gx, gy)).getD 0).toNat + 2) (gx, gy) []
      else if gOf e > (dget st.g_costs (nodeOf e)).getD (gOf e + 1) then
        astarLoop tm sx sy gx gy fuel
          { open_set := rest, g_costs := st.g_costs,
            came_from := st.came_from }
      else
        astarLoop tm sx sy gx gy fuel
          (NEIGHBORS.foldl
            (relaxStep tm gx gy (nodeOf e).1 (nodeOf e).2 (gOf e))
            { open_set := rest, g_costs := st.g_costs,
              came_from := st.came_from })

/-- Upper bound on every stored `g` value plus one. -/
def MAXG (tm : TileMap) : ℕ := 1414 * (tm.width * tm.height) + 1

/-- Fuel provably sufficient for the loop to reach its natural exit. -/
def astarFuel (tm : TileMap) : ℕ :=
  2 * MAXG tm * (tm.width * tm.height) + 2

/-- The initial search state for a start node with heuristic `h0`. -/
def astarInit (sx sy gx gy : ℤ) : AState :=
  { open_set := [(heuristic sx sy gx gy, sy, sx, 0)],
    g_costs := [((sx, sy), 0)],
    came_from := [] }

/-- `find_path`: empty on `start == goal` or unwalkable endpoints;
otherwise run the loop (the fuel-exhaustion branch is proven
unreachable). -/
def find_path (tm : TileMap) (start_x start_y goal_x goal_y : ℤ) :
    List (ℤ × ℤ) :=
  if start_x = goal_x ∧ start_y = goal_y then []
  else if ¬ tm.is_walkable start_x start_y then []
  else if ¬ tm.is_walkable goal_x goal_y then []
  else
    match astarLoop tm start_x start_y goal_x goal_y (astarFuel tm)
        (astarInit start_x start_y goal_x goal_y) with
    | some r => r
    | none => []

/-- A legal 8-directional step from `q` to `p`: `q` walkable, the move
one of the eight directions, the target walkable, and no corner
cutting. -/
def stepOK (tm : TileMap) (q p : ℤ × ℤ) : Prop :=
  tm.is_walkable q.1 q.2 = true ∧
  ∃ d ∈ NEIGHBORS, p = (q.1 + d.1, q.2 + d.2.1) ∧ relaxable tm q d

/-- A (nonempty) legal path from `s` to `g`. -/
def PathExists (tm : TileMap) (s g : ℤ × ℤ) : Prop :=
  ∃ l : List (ℤ × ℤ), l ≠ [] ∧ List.Chain (stepOK tm) s l ∧
    l.getLast? = some g

/-- Sum of the (nonnegative) stored cost values. -/
def sumG (l : List ((ℤ × ℤ) × ℤ)) : ℕ :=
  (l.map (fun e => e.2.toNat)).sum

/-- Termination potential of the cost map. -/
def phiM (tm : TileMap) (st : AState) : ℕ :=
  MAXG tm * (tm.width * tm.height - st.g_costs.length) + sumG st.g_costs

/-- Termination measure of the loop state. -/
def measureM (tm : TileMap) (st : AState) : ℕ :=
  2 * phiM tm st + st.open_set.length

/-- The core search invariant tying the open set, cost map and parent
map together (everything except the frontier property, which is
temporarily violated for the popped node while its neighbors are being
relaxed). -/
structure AInvCore (tm : TileMap) (sx sy : ℤ) (st : AState) : Prop where
  g_nonneg : ∀ p v, dget st.g_costs p = some v → 0 ≤ v
  start_zero : dget st.g_costs (sx, sy) = some 0
  keys_nodup : (st.g_costs.map (fun e => e.1)).Nodup
  keys_walk : ∀ p v, dget st.g_costs p = some v →
    tm.is_walkable p.1 p.2 = true
  cf_start : dget st.came_from (sx, sy) = none
  cf_dom : ∀ p v, dget st.g_costs p = some v →
    p = (sx, sy) ∨ ∃ q, dget st.came_from p = some q
  cf_step : ∀ p q, dget st.came_from p = some q →
    ∃ vp vq, dget st.g_costs p = some vp ∧ dget st.g_costs q = some vq ∧
      vq < vp ∧ stepOK tm q p
  open_g : ∀ e ∈ st.open_set, ∃ v, dget st.g_costs (nodeOf e) = some v ∧
    v ≤ gOf e
  val_bound : ∀ p v, dget st.g_costs p = some v →
    v ≤ 1414 * st.g_costs.length

/-- The frontier property of a cost-map node: either a matching entry is
still in the open set, or the node is fully expanded (all its relaxable
neighbors already have a cost) and is not the goal. -/
def frontierOK (tm : TileMap) (gx gy : ℤ) (st : AState) (p : ℤ × ℤ)
    (v : ℤ) : Prop :=
  (∃ e ∈ st.open_set, nodeOf e = p ∧ gOf e = v) ∨
  (p ≠ (gx, gy) ∧ ∀ d ∈ NEIGHBORS, relaxable tm p d →
    ∃ vq, dget st.g_costs (p.1 + d.1, p.2 + d.2.1) = some vq)

/-! ## Harvesting (`src/simulation/harvest.py`) -/

/-- `_HARVEST_RANGE_MT`. -/
def HARVEST_RANGE_MT : ℤ := HARVEST_RANGE * MILLI_TILES_PER_TILE

/-- `_HARVEST_RANGE_SQ`. -/
def HARVEST_RANGE_SQ : ℤ := HARVEST_RANGE_MT * HARVEST_RANGE_MT

/-- `_harvest_this_tick`: Bresenham-style integer distribution of the
harvest rate across ticks. -/
def harvest_this_tick (rate tick : ℕ) : ℕ :=
  (rate * (tick % TICK_RATE + 1)) / TICK_RATE -
    (rate * (tick % TICK_RATE)) / TICK_RATE

/-- `_pathfind_to`: route an entity towards a goal given in
milli-tiles.  When A* finds no path the target is set to the raw goal;
otherwise the path becomes the tile centers and the target its last
element (provably non-empty, so the `getD` default is never used). -/
def pathfind_to (s : GameState) (e : Entity) (goal_x goal_y : ℤ) : Entity :=
  let tile_path := find_path s.tilemap
    (e.x.fdiv MILLI_TILES_PER_TILE) (e.y.fdiv MILLI_TILES_PER_TILE)
    (goal_x.fdiv MILLI_TILES_PER_TILE) (goal_y.fdiv MILLI_TILES_PER_TILE)
  if tile_path = [] then
    { e with target_x := goal_x, target_y := goal_y, path := [] }
  else
    let milli_path := tile_path.map (fun q =>
      (q.1 * MILLI_TILES_PER_TILE + MILLI_TILES_PER_TILE.fdiv 2,
       q.2 * MILLI_TILES_PER_TILE + MILLI_TILES_PER_TILE.fdiv 2))
    { e with path := milli_path,
             target_x := (milli_path.getLast?.getD (goal_x, goal_y)).1,
             target_y := (milli_path.getLast?.getD (goal_x, goal_y)).2 }

/-- The nearest own hive scan shared by `_try_deposit` and
`_send_to_nearest_hive` (first strictly-closer hive wins). -/
def nearestHive (s : GameState) (e : Entity) : Option Entity :=
  s.entities.foldl (fun acc h =>
    if h.entity_type = EntityType.HIVE ∧ h.player_id = e.player_id then
      match acc with
      | none => some h
      | some b =>
        if (e.x - h.x) * (e.x - h.x) + (e.y - h.y) * (e.y - h.y) <
            (e.x - b.x) * (e.x - b.x) + (e.y - b.y) * (e.y - b.y) then
          some h
        else some b
    else acc) none

/-- `_send_to_nearest_hive`. -/
def send_to_nearest_hive (s : GameState) (e : Entity) : Entity :=
  match nearestHive s e with
  | none => { e with state := EntityState.IDLE, target_entity_id := -1 }
  | some h => pathfind_to s e h.x h.y

/-- The amount moved by one extraction
(`min(amount, can_carry, available)`). -/
def transferAmt (s : GameState) (e corpse : Entity) : ℤ :=
  min ((harvest_this_tick HARVEST_RATE s.tick : ℤ))
    (min (ANT_CARRY_CAPACITY - e.carrying) corpse.jelly_value)

/-- `_try_extract` acting on the ant at index `i` (the loop variable of
`process_harvesting`); entity objects mutated in place become a
positional update for the ant and a first-match update for the
corpse. -/
def try_extract (s : GameState) (i : ℕ) (e : Entity) : GameState :=
  match get_entity s e.target_entity_id with
  | none =>
    { s with
        entities := updateIdx s.entities i (fun a =>
            { a with state := EntityState.IDLE, target_entity_id := -1 }) }
  | some corpse =>
    if corpse.entity_type ≠ EntityType.CORPSE then
      { s with
          entities := updateIdx s.entities i (fun a =>
              { a with state := EntityState.IDLE, target_entity_id := -1 }) }
    else if (e.x - corpse.x) * (e.x - corpse.x) +
        (e.y - corpse.y) * (e.y - corpse.y) > HARVEST_RANGE_SQ then
      { s with
          entities := updateIdx s.entities i (fun a =>
              pathfind_to s a corpse.x corpse.y) }
    else
      let t := transferAmt s e corpse
      let s1 := if 0 < t then
          { s with
              entities := updateFirst
                  (fun c => c.entity_id == e.target_entity_id)
                  (fun c => { c with jelly_value := c.jelly_value - t })
                  (updateIdx s.entities i (fun a =>
                    { a with carrying := a.carrying + t })) }
        else s
      if ANT_CARRY_CAPACITY ≤ e.carrying + (if 0 < t then t else 0) ∨
          corpse.jelly_value - (if 0 < t then t else 0) ≤ 0 then
        { s1 with
            entities := updateIdx s1.entities i (fun a =>
                send_to_nearest_hive s1 a) }
      else s1

/-- `_try_deposit` acting on the ant at index `i`. -/
def try_deposit (s : GameState) (i : ℕ) (e : Entity) : GameState :=
  match nearestHive s e with
  | none =>
    { s with
        entities := updateIdx s.entities i (fun a =>
            { a with state := EntityState.IDLE, target_entity_id := -1 }) }
  | some h =>
    if (e.x - h.x) * (e.x - h.x) + (e.y - h.y) * (e.y - h.y) >
        HARVEST_RANGE_SQ then
      { s with
          entities := updateIdx s.entities i (fun a =>
              pathfind_to s a h.x h.y) }
    else
      let s1 : GameState := { s with
        player_jelly := dictSet s.player_jelly e.player_id
            (dictGet s.player_jelly e.player_id + e.carrying),
        entities := updateIdx s.entities i (fun a =>
            { a with carrying := 0 }) }
      match get_entity s1 e.target_entity_id with
      | some corpse =>
        if corpse.entity_type = EntityType.CORPSE ∧
            0 < corpse.jelly_value then
          { s1 with
              entities := updateIdx s1.entities i (fun a =>
                  pathfind_to s1 a corpse.x corpse.y) }
        else
          { s1 with
              entities := updateIdx s1.entities i (fun a =>
                  { a with state := EntityState.IDLE,
                           target_entity_id := -1 }) }
      | none =>
        { s1 with
            entities := updateIdx s1.entities i (fun a =>
                { a with state := EntityState.IDLE,
                         target_entity_id := -1 }) }

/-- One iteration of the `process_harvesting` loop for the entity at
index `i`. -/
def harvestStep (s : GameState) (i : ℕ) : GameState :=
  match s.entities[i]? with
  | none => s
  | some e =>
    if e.state = EntityState.HARVESTING ∧ e.entity_type = EntityType.ANT ∧
        e.is_moving = false ∧ e.path = [] then
      match get_entity s e.target_entity_id with
      | some corpse =>
        if e.carrying < ANT_CARRY_CAPACITY ∧
            corpse.entity_type = EntityType.CORPSE ∧
            0 < corpse.jelly_value then
          if (e.x - corpse.x) * (e.x - corpse.x) +
              (e.y - corpse.y) * (e.y - corpse.y) ≤ HARVEST_RANGE_SQ then
            try_extract s i e
          else
            { s with
                entities := updateIdx s.entities i (fun a =>
                    pathfind_to s a corpse.x corpse.y) }
        else if 0 < e.carrying then try_deposit s i e
        else
          { s with
              entities := updateIdx s.entities i (fun a =>
                  { a with state := EntityState.IDLE,
                           target_entity_id := -1 }) }
      | none =>
        if 0 < e.carrying then try_deposit s i e
        else
          { s with
              entities := updateIdx s.entities i (fun a =>
                  { a with state := EntityState.IDLE,
                           target_entity_id := -1 }) }
    else s

/-- `process_harvesting`: the for-loop over `state.entities`, iterated
by position. -/
def process_harvesting (s : GameState) : GameState :=
  (List.range s.entities.length).foldl harvestStep s

/-- Total carried jelly over all ants. -/
def antCarrySum (l : List Entity) : ℤ :=
  (l.map (fun e => if e.entity_type = EntityType.ANT then e.carrying
    else 0)).sum

/-- Total remaining jelly over all corpses. -/
def corpseJellySum (l : List Entity) : ℤ :=
  (l.map (fun e => if e.entity_type = EntityType.CORPSE then e.jelly_value
    else 0)).sum

/-- The conserved quantity of the harvesting pass: banked jelly plus
carried jelly plus corpse jelly. -/
def jellyTotal (s : GameState) : ℤ :=
  dictSum s.player_jelly + antCarrySum s.entities +
    corpseJellySum s.entities

/-- A harvesting ant in range of a corpse, for concrete evaluation. -/
def harvestAnt : Entity :=
  { entity_id := 1, entity_type := EntityType.ANT, player_id := 0,
    x := 5000, y := 5000, target_x := 5000, target_y := 5000,
    state := EntityState.HARVESTING, carrying := 0, target_entity_id := 2 }

/-- The corpse targeted by `harvestAnt`. -/
def harvestCorpse : Entity :=
  { entity_id := 2, entity_type := EntityType.CORPSE, player_id := -1,
    x := 5500, y := 5000, target_x := 5500, target_y := 5000,
    jelly_value := 5 }

/-- A small harvesting scenario: one ant extracting from one corpse. -/
def harvestDemoState : GameState :=
  { tick := 1, entities := [harvestAnt, harvestCorpse],
    player_jelly := [(0, 0), (1, 0)], tilemap := openMap 20 20 }

/-! # Theorems -/

/-! ## Command ordering lemmas -/

theorem keyLex_refl (a : ℤ × ℤ × ℤ) : keyLex a a := by
  unfold keyLex; omega

theorem keyLex_total (a b : ℤ × ℤ × ℤ) : keyLex a b ∨ keyLex b a := by
  unfold keyLex; omega

theorem keyLex_trans {a b c : ℤ × ℤ × ℤ} (h₁ : keyLex a b) (h₂ : keyLex b c) :
    keyLex a c := by
  unfold keyLex at *; omega

theorem keyLex_antisymm {a b : ℤ × ℤ × ℤ} (h₁ : keyLex a b) (h₂ : keyLex b a) :
    a = b := by
  obtain ⟨a1, a2, a3⟩ := a
  obtain ⟨b1, b2, b3⟩ := b
  dsimp only [keyLex] at h₁ h₂
  simp only [Prod.mk.injEq]
  omega

instance : IsTotal Command cmdLe :=
  ⟨fun a b => keyLex_total a.sort_key b.sort_key⟩

instance : IsTrans Command cmdLe := ⟨fun _ _ _ => keyLex_trans⟩

/-- Two sorted permutations of each other are equal provided commands with
equal sort keys are equal (sort-key injectivity on the list). -/
theorem sorted_perm_unique :
    ∀ {l₁ l₂ : List Command}, l₁.Perm l₂ → l₁.Sorted cmdLe → l₂.Sorted cmdLe →
      (∀ a ∈ l₁, ∀ b ∈ l₁, a.sort_key = b.sort_key → a = b) → l₁ = l₂ := by
  intro l₁
  induction l₁ with
  | nil => intro l₂ hp _ _ _; exact (hp.nil_eq).symm ▸ rfl
  | cons a t₁ ih =>
    intro l₂ hp hs₁ hs₂ hinj
    cases l₂ with
    | nil => exact absurd hp.symm.nil_eq (by simp)
    | cons b t₂ =>
      have hab : a ∈ b :: t₂ := hp.mem_iff.mp (List.mem_cons_self a t₁)
      have hba : b ∈ a :: t₁ := hp.mem_iff.mpr (List.mem_cons_self b t₂)
      have hle₁ : cmdLe a b := by
        rcases List.mem_cons.mp hba with h | h
        · exact h ▸ keyLex_refl a.sort_key
        · exact (List.sorted_cons.mp hs₁).1 b h
      have hle₂ : cmdLe b a := by
        rcases List.mem_cons.mp hab with h | h
        · exact h ▸ keyLex_refl b.sort_key
        · exact (List.sorted_cons.mp hs₂).1 a h
      have hkey : a.sort_key = b.sort_key := keyLex_antisymm hle₁ hle₂
      have heq : a = b := hinj a (List.mem_cons_self a t₁) b hba hkey
      subst heq
      have hp' : t₁.Perm t₂ := hp.cons_inv
      have htail : t₁ = t₂ :=
        ih hp' (List.sorted_cons.mp hs₁).2 (List.sorted_cons.mp hs₂).2
          (fun x hx y hy h => hinj x (List.mem_cons_of_mem a hx)
            y (List.mem_cons_of_mem a hy) h)
      rw [htail]

/-! ## Claim C2 — canonical command ordering -/

/-- C2 counterexample: the claim "sorting commands by `sort_key = (player,
kind, tick)` is independent of the insertion order" is false.  The two
distinct MOVE commands `cmdMoveA` and `cmdMoveB` share player, kind and
tick, so they compare equal under `sort_key`; Python's stable sort (and
its model `sortCommands`) then preserves arrival order, and the two
arrival orders of the same two-command multiset produce different
`pop_tick` results. -/
theorem pop_tick_depends_on_insertion_order :
    [cmdMoveA, cmdMoveB].Perm [cmdMoveB, cmdMoveA] ∧
      cmdMoveA.sort_key = cmdMoveB.sort_key ∧ cmdMoveA ≠ cmdMoveB ∧
      pop_tick (addCommand (addCommand [] cmdMoveA) cmdMoveB) ≠
        pop_tick (addCommand (addCommand [] cmdMoveB) cmdMoveA) := by
  refine ⟨List.Perm.swap _ _ _, by decide, by decide, by decide⟩

/-- C2 amended: sorting by `sort_key = (player, kind, tick)` ascending is
total, and its result is independent of the insertion order for every
multiset of commands in which distinct commands never share a sort key:
for any two arrival orders of such a multiset, `pop_tick`'s canonical sort
produces the same final sequence. -/
theorem pop_tick_insertion_order_invariant (l₁ l₂ : List Command)
    (hperm : l₁.Perm l₂)
    (hinj : ∀ a ∈ l₁, ∀ b ∈ l₁, a.sort_key = b.sort_key → a = b) :
    pop_tick l₁ = pop_tick l₂ := by
  have h₁ := List.sorted_insertionSort cmdLe l₁
  have h₂ := List.sorted_insertionSort cmdLe l₂
  have hp : (List.insertionSort cmdLe l₁).Perm (List.insertionSort cmdLe l₂) :=
    (List.perm_insertionSort cmdLe l₁).trans
      (hperm.trans (List.perm_insertionSort cmdLe l₂).symm)
  exact sorted_perm_unique hp h₁ h₂
    (fun a ha b hb h =>
      hinj a ((List.perm_insertionSort cmdLe l₁).mem_iff.mp ha)
        b ((List.perm_insertionSort cmdLe l₁).mem_iff.mp hb) h)

/-- C2 witness: the amended theorem applied to a concrete two-command
multiset with distinct sort keys, in both arrival orders. -/
theorem pop_tick_insertion_order_invariant_witness :
    pop_tick [cmdMoveA, { cmdMoveB with player_id := 1 }] =
      pop_tick [{ cmdMoveB with player_id := 1 }, cmdMoveA] :=
  pop_tick_insertion_order_invariant _ _ (List.Perm.swap _ _ _) (by decide)

/-! ## Claim C4 — command kinds -/

/-- C4: the `CommandType` enum in `src/simulation/commands.py` defines
exactly seven kinds (`MOVE = 1` … `ATTACK = 7`), not the eight kinds the
claim lists: there is no `MORPH_SPITTER` member, even though
`tick.py` dispatches on `CommandType.MORPH_SPITTER`, `hive.py` implements
the morph handler, and the test suite exercises it. -/
theorem commandType_has_exactly_seven_kinds :
    (∀ k : CommandType, k ∈ CommandType.members) ∧
      CommandType.members.Nodup ∧ CommandType.members.length = 7 ∧
      (∀ k : CommandType, 1 ≤ k.val ∧ k.val ≤ 7) := by
  refine ⟨fun k => by cases k <;> simp [CommandType.members], by decide, rfl,
    fun k => by cases k <;> exact ⟨by decide, by decide⟩⟩

/-! ## Claim C8 — Bresenham DPS distribution -/

theorem damage_this_tick_lt (dps t : ℕ) (ht : t < TICK_RATE) :
    damage_this_tick dps t = (dps * (t + 1)) / TICK_RATE - (dps * t) / TICK_RATE := by
  unfold damage_this_tick
  rw [Nat.mod_eq_of_lt ht]

theorem sum_damage_upto (dps : ℕ) :
    ∀ n, n ≤ TICK_RATE →
      (∑ t ∈ Finset.range n, damage_this_tick dps t) = (dps * n) / TICK_RATE := by
  intro n
  induction n with
  | zero => intro _; simp
  | succ m ih =>
    intro h
    have hm : m < TICK_RATE := Nat.lt_of_succ_le h
    rw [Finset.sum_range_succ, ih (Nat.le_of_lt hm), damage_this_tick_lt dps m hm]
    have hmono : (dps * m) / TICK_RATE ≤ (dps * (m + 1)) / TICK_RATE :=
      Nat.div_le_div_right (Nat.mul_le_mul_left dps (Nat.le_succ m))
    omega

theorem damage_periodic (dps t : ℕ) :
    damage_this_tick dps (t + TICK_RATE) = damage_this_tick dps t := by
  unfold damage_this_tick
  rw [Nat.add_mod_right]

theorem sum_damage_window (dps : ℕ) :
    ∀ t₀, (∑ k ∈ Finset.range TICK_RATE, damage_this_tick dps (t₀ + k)) = dps := by
  intro t₀
  induction t₀ with
  | zero =>
    simp only [Nat.zero_add]
    rw [sum_damage_upto dps TICK_RATE le_rfl]
    show dps * 10 / 10 = dps
    omega
  | succ m ih =>
    have h₁ : (∑ k ∈ Finset.range (TICK_RATE + 1), damage_this_tick dps (m + k)) =
        (∑ k ∈ Finset.range TICK_RATE, damage_this_tick dps (m + k)) +
          damage_this_tick dps (m + TICK_RATE) := Finset.sum_range_succ _ _
    have h₂ : (∑ k ∈ Finset.range (TICK_RATE + 1), damage_this_tick dps (m + k)) =
        (∑ k ∈ Finset.range TICK_RATE, damage_this_tick dps (m + 1 + k)) +
          damage_this_tick dps m := by
      rw [Finset.sum_range_succ']
      simp only [Nat.add_zero]
      have hs : (∑ k ∈ Finset.range TICK_RATE, damage_this_tick dps (m + (k + 1))) =
          (∑ k ∈ Finset.range TICK_RATE, damage_this_tick dps (m + 1 + k)) :=
        Finset.sum_congr rfl (fun k _ => by congr 1; omega)
      rw [hs]
    have h₃ := damage_periodic dps m
    omega

/-- C8: the per-tick Bresenham damage function
`damage_this_tick(dps, tick) = ((dps*(t+1)) div T) - ((dps*t) div T)` with
`t = tick mod T`, `T = tick_rate = 10`, sums exactly to `dps` over every
window of `T` consecutive ticks, is periodic with period `T`, and the
hive-income function `income_this_tick` is the identical function. -/
theorem bresenham_distribution_exact :
    (∀ dps t₀ : ℕ,
        (∑ k ∈ Finset.range TICK_RATE, damage_this_tick dps (t₀ + k)) = dps) ∧
      (∀ dps t : ℕ,
        damage_this_tick dps (t + TICK_RATE) = damage_this_tick dps t) ∧
      (∀ r t : ℕ, income_this_tick r t = damage_this_tick r t) :=
  ⟨fun dps t₀ => sum_damage_window dps t₀,
   fun dps t => damage_periodic dps t,
   fun _ _ => rfl⟩

/-! ## Serialization failure lemmas -/

theorem seqBytes_none_of_mem :
    ∀ {l : List (Option (List ℕ))}, none ∈ l → seqBytes l = none := by
  intro l hl
  induction l with
  | nil => exact absurd hl (by simp)
  | cons o rest ih =>
    rcases List.mem_cons.mp hl with h | h
    · rw [← h]
      rfl
    · cases o with
      | none => rfl
      | some b =>
        show ((some b).bind fun b => (seqBytes rest).bind
          fun r => some (b ++ r)) = none
        rw [ih h]
        rfl

theorem toBytesBE_unsigned_neg_none {v : ℤ} (len : ℕ) (h : v < 0) :
    toBytesBE v len false = none := by
  have hcond : ¬(0 ≤ v ∧ v < 2 ^ (8 * len)) := by omega
  simp [toBytesBE, hcond]

/-! ## Claim C1 — state hash definedness -/

/-- C1: the claim that `compute_hash` is defined for every game state —
in particular for states containing entities whose owner is the sentinel
`NEUTRAL = -1` — fails on the code: `player_id` is serialized with
`int.to_bytes(4, "big")` without `signed=True`, which raises
`OverflowError` on negative values, so the byte string fed to SHA-256 is
undefined (`none`) for every state containing a neutral-owned entity. -/
theorem hashInput_none_of_neutral_owner (s : GameState) (e : Entity)
    (he : e ∈ s.entities) (hneg : e.player_id < 0) : hashInput s = none := by
  have hchunk : (none : Option (List ℕ)) ∈ entityFieldBytes e := by
    have h := toBytesBE_unsigned_neg_none (v := e.player_id) 4 hneg
    rw [← h]
    simp [entityFieldBytes]
  exact seqBytes_none_of_mem
    (List.mem_append.mpr (Or.inr (List.mem_flatMap.mpr ⟨e, he, hchunk⟩)))

/-- C1 witness: the failure evaluated on a concrete state holding one
corpse (`player_id = -1`). -/
theorem hashInput_none_of_neutral_owner_witness :
    corpseEntity.player_id = -1 ∧ hashInput stateWithCorpse = none :=
  ⟨rfl, hashInput_none_of_neutral_owner stateWithCorpse corpseEntity
    (List.mem_singleton.mpr rfl) (by decide)⟩

/-! ## Claim C3 — command wire round-trip -/

theorem encodeCommand_none_of_neg_target {c : Command}
    (h : c.target_entity_id < 0) : encodeCommand c = none := by
  apply seqBytes_none_of_mem
  have hn := toBytesBE_unsigned_neg_none (v := c.target_entity_id) 4 h
  rw [← hn]
  simp [encodeCommand]

/-- C3: the claim that every `Command` record round-trips through the
COMMANDS wire format — including the sentinel `target_entity_id = -1`
used when no target entity is given — fails on the code:
`target_entity_id` is packed with `struct` format `"!I"` (unsigned
32-bit), and `struct.pack` raises `struct.error` on `-1`, so
`encode_commands` is undefined on any command list containing a
sentinel-targeted command and the round-trip cannot even start. -/
theorem encode_commands_none_of_sentinel (commands : List Command) (tick : ℤ)
    (c : Command) (hc : c ∈ commands) (h : c.target_entity_id < 0) :
    encode_commands commands tick = none := by
  apply seqBytes_none_of_mem
  refine List.mem_append.mpr (Or.inr ?_)
  rw [← encodeCommand_none_of_neg_target h]
  exact List.mem_map_of_mem encodeCommand hc

/-- C3 witness: the failure evaluated on the exact harvest-move command
the input handler builds (`target_entity_id = -1`). -/
theorem encode_commands_none_of_sentinel_witness :
    harvestMoveCmd.target_entity_id = -1 ∧
      encode_commands_default [harvestMoveCmd] = none :=
  ⟨rfl, encode_commands_none_of_sentinel [harvestMoveCmd] harvestMoveCmd.tick
    harvestMoveCmd (List.mem_singleton.mpr rfl) (by decide)⟩

/-! ## Claim C9 — SPAWN_ANT validation -/

/-- C9 counterexample: the claim requires the targeted entity to be a
live hive, and otherwise a silent no-op leaving the entire state
unchanged.  On a state holding a dead hive (`hp = 0`) of player 0 with
`cooldown = 0` and 50 jelly, the code nevertheless deducts the spawn
cost and sets the cooldown: `handle_spawn_ant` never inspects `hp`, so
the state changes although the "live hive" requirement fails. -/
theorem handle_spawn_ant_not_checking_liveness :
    (get_entity stateWithDeadHive spawnCmd.target_entity_id).map
        (fun e => e.hp) = some 0 ∧
      (handle_spawn_ant stateWithDeadHive spawnCmd).player_jelly ≠
        stateWithDeadHive.player_jelly ∧
      dictGet (handle_spawn_ant stateWithDeadHive spawnCmd).player_jelly 0 =
        40 := by
  refine ⟨by decide, by decide, by decide⟩

/-- C9 amended: for every state and every SPAWN_ANT command, if the
targeted entity is found and is a hive owned by the issuing player with
non-positive cooldown and the player's jelly is at least `spawn_cost`
(liveness of the hive is not checked), then exactly `spawn_cost` jelly is
deducted and the first matching hive's cooldown is set to
`spawn_cooldown_ticks`, nothing else changing; otherwise the command is a
silent no-op and the entire state is unchanged. -/
theorem handle_spawn_ant_characterization (s : GameState) (cmd : Command) :
    (∀ hive, get_entity s cmd.target_entity_id = some hive →
      ((hive.entity_type = EntityType.HIVE ∧ hive.player_id = cmd.player_id ∧
          ¬hive.cooldown > 0 ∧
          ANT_SPAWN_COST ≤ dictGet s.player_jelly cmd.player_id) →
        handle_spawn_ant s cmd = { s with
          player_jelly := dictSet s.player_jelly cmd.player_id
            (dictGet s.player_jelly cmd.player_id - ANT_SPAWN_COST),
          entities := updateFirst
            (fun e => e.entity_id == cmd.target_entity_id)
            (fun e => { e with cooldown := ANT_SPAWN_COOLDOWN })
            s.entities }) ∧
      (¬(hive.entity_type = EntityType.HIVE ∧
          hive.player_id = cmd.player_id ∧ ¬hive.cooldown > 0 ∧
          ANT_SPAWN_COST ≤ dictGet s.player_jelly cmd.player_id) →
        handle_spawn_ant s cmd = s)) ∧
    (get_entity s cmd.target_entity_id = none →
      handle_spawn_ant s cmd = s) := by
  constructor
  · intro hive hfind
    constructor
    · rintro ⟨h1, h2, h3, h4⟩
      simp only [handle_spawn_ant, hfind]
      split_ifs with c1 c2 c3
      · exact absurd h1 c1
      · exact absurd h2 c2
      · exact absurd c3 (by omega)
      · rfl
    · intro hnot
      simp only [handle_spawn_ant, hfind]
      split_ifs with c1 c2 c3 c4
      · rfl
      · rfl
      · rfl
      · rfl
      · exact absurd ⟨not_not.mp c1, not_not.mp c2, c3, by omega⟩ hnot
  · intro hfind
    simp only [handle_spawn_ant, hfind]

/-- C9 witness: the amended characterization evaluated on a concrete
state with a live owned hive, zero cooldown and sufficient jelly. -/
theorem handle_spawn_ant_characterization_witness :
    handle_spawn_ant stateWithLiveHive spawnCmd = { stateWithLiveHive with
      player_jelly := dictSet stateWithLiveHive.player_jelly 0
        (dictGet stateWithLiveHive.player_jelly 0 - ANT_SPAWN_COST),
      entities := updateFirst (fun e => e.entity_id == 0)
        (fun e => { e with cooldown := ANT_SPAWN_COOLDOWN })
        stateWithLiveHive.entities } :=
  ((handle_spawn_ant_characterization stateWithLiveHive spawnCmd).1
    liveHiveEntity rfl).1 ⟨rfl, rfl, by decide, by decide⟩

/-! ## List-update membership lemmas -/

theorem mem_updateFirst_cases {α : Type} {p : α → Bool} {f : α → α} :
    ∀ {l : List α} {e : α}, e ∈ updateFirst p f l →
      e ∈ l ∨ ∃ a, a ∈ l ∧ e = f a := by
  intro l
  induction l with
  | nil => intro e h; exact absurd h (by simp [updateFirst])
  | cons a rest ih =>
    intro e h
    by_cases hp : p a
    · simp only [updateFirst, if_pos hp, List.mem_cons] at h
      rcases h with h | h
      · exact Or.inr ⟨a, List.mem_cons_self a rest, h⟩
      · exact Or.inl (List.mem_cons_of_mem a h)
    · simp only [updateFirst, if_neg hp, List.mem_cons] at h
      rcases h with h | h
      · exact Or.inl (h ▸ List.mem_cons_self a rest)
      · rcases ih h with h' | ⟨b, hb, he⟩
        · exact Or.inl (List.mem_cons_of_mem a h')
        · exact Or.inr ⟨b, List.mem_cons_of_mem a hb, he⟩

theorem mem_updateIdx_cases {α : Type} {l : List α} {i : ℕ} {f : α → α}
    {e : α} (h : e ∈ updateIdx l i f) : e ∈ l ∨ ∃ a, a ∈ l ∧ e = f a := by
  unfold updateIdx at h
  cases hidx : l[i]? with
  | none => rw [hidx] at h; exact Or.inl h
  | some a =>
    rw [hidx] at h
    rcases List.mem_or_eq_of_mem_set h with h' | h'
    · exact Or.inl h'
    · exact Or.inr ⟨a, List.getElem?_mem hidx, h'⟩

/-! ## Identity-preservation lemmas for the combat passes -/

theorem sameIds_refl (l : List Entity) : sameIds l l :=
  fun e he => ⟨e, he, rfl⟩

theorem sameIds_trans {l₁ l₂ l₃ : List Entity} (h₁₂ : sameIds l₁ l₂)
    (h₂₃ : sameIds l₂ l₃) : sameIds l₁ l₃ := by
  intro e he
  obtain ⟨e₁, he₁, hid₁⟩ := h₁₂ e he
  obtain ⟨e₂, he₂, hid₂⟩ := h₂₃ e₁ he₁
  exact ⟨e₂, he₂, hid₂.trans hid₁⟩

theorem sameIds_updateFirst {p : Entity → Bool} {f : Entity → Entity}
    (hf : ∀ a, (f a).entity_id = a.entity_id) (l : List Entity) :
    sameIds (updateFirst p f l) l := by
  intro e he
  rcases mem_updateFirst_cases he with h | ⟨a, ha, rfl⟩
  · exact ⟨e, h, rfl⟩
  · exact ⟨a, ha, (hf a).symm⟩

theorem sameIds_updateIdx {i : ℕ} {f : Entity → Entity}
    (hf : ∀ a, (f a).entity_id = a.entity_id) (l : List Entity) :
    sameIds (updateIdx l i f) l := by
  intro e he
  rcases mem_updateIdx_cases he with h | ⟨a, ha, rfl⟩
  · exact ⟨e, h, rfl⟩
  · exact ⟨a, ha, (hf a).symm⟩

theorem scanStep_fst_sameIds (t : ℕ) (acc : List Entity × List (ℤ × ℤ))
    (i : ℕ) : sameIds (scanStep t acc i).1 acc.1 := by
  unfold scanStep
  split
  · exact sameIds_refl _
  · split
    · exact sameIds_refl _
    · split
      · exact sameIds_refl _
      · split
        · exact sameIds_updateIdx
            (f := fun e => { e with state := EntityState.ATTACKING })
            (fun a => rfl) acc.1
        · split
          · exact sameIds_updateIdx
              (f := fun e => { e with state := EntityState.IDLE })
              (fun a => rfl) acc.1
          · exact sameIds_refl _

theorem scanFold_fst_sameIds (t : ℕ) (idxs : List ℕ) :
    ∀ acc, sameIds ((idxs.foldl (scanStep t) acc).1) acc.1 := by
  induction idxs with
  | nil => intro acc; exact sameIds_refl _
  | cons i rest ih =>
    intro acc
    exact sameIds_trans (ih (scanStep t acc i)) (scanStep_fst_sameIds t acc i)

theorem applyAttacks_sameIds (attacks : List (ℤ × ℤ)) :
    ∀ es, sameIds (applyAttacks attacks es) es := by
  induction attacks with
  | nil => intro es; exact sameIds_refl _
  | cons td rest ih =>
    intro es
    exact sameIds_trans
      (ih (updateFirst (fun e => e.entity_id == td.1)
        (fun e => { e with hp := e.hp - td.2 }) es))
      (sameIds_updateFirst (f := fun e => { e with hp := e.hp - td.2 })
        (fun a => rfl) es)

theorem auto_attack_sameIds (s : GameState) :
    sameIds (auto_attack s).entities s.entities := by
  have h₁ := applyAttacks_sameIds (autoAttackScan s).2 (autoAttackScan s).1
  have h₂ := scanFold_fst_sameIds s.tick (List.range s.entities.length)
    (s.entities, [])
  exact sameIds_trans h₁ h₂

theorem decay_corpses_sameIds (s : GameState) :
    sameIds (decay_corpses s).entities s.entities := by
  intro e he
  simp only [decay_corpses] at he
  obtain ⟨he', _⟩ := List.mem_filter.mp he
  obtain ⟨e₀, he₀, heq⟩ := List.mem_map.mp he'
  refine ⟨e₀, he₀, ?_⟩
  by_cases hc : e₀.entity_type = EntityType.CORPSE
  · rw [← heq, if_pos hc]
  · rw [← heq, if_neg hc]

theorem mem_deathStep {st : GameState} {d e : Entity}
    (h : e ∈ (deathStep st d).entities) :
    e ∈ st.entities ∨
      (e.entity_type = EntityType.CORPSE ∧ e.hp = CORPSE_DECAY_TICKS) := by
  unfold deathStep at h
  split at h
  · unfold create_entity at h
    rcases List.mem_append.mp h with h' | h'
    · exact Or.inl h'
    · rcases List.mem_singleton.mp h' with rfl
      exact Or.inr ⟨rfl, rfl⟩
  · exact Or.inl h

theorem mem_deathFold (dead : List Entity) :
    ∀ (st : GameState) (e : Entity), e ∈ (dead.foldl deathStep st).entities →
      e ∈ st.entities ∨
        (e.entity_type = EntityType.CORPSE ∧ e.hp = CORPSE_DECAY_TICKS) := by
  induction dead with
  | nil => intro st e h; exact Or.inl h
  | cons d rest ih =>
    intro st e h
    rcases ih (deathStep st d) e h with h' | h'
    · exact mem_deathStep h'
    · exact Or.inr h'

theorem mem_process_deaths {s : GameState} {e : Entity}
    (he : e ∈ (process_deaths s).entities) :
    e ∈ s.entities ∨
      (e.entity_type = EntityType.CORPSE ∧ e.hp = CORPSE_DECAY_TICKS) := by
  unfold process_deaths at he
  rcases mem_deathFold _ _ _ he with h | h
  · exact Or.inl (List.mem_filter.mp h).1
  · exact Or.inr h

/-! ## Claim C5 — decay/death ordering -/

/-- C5 counterexample: the claim states that the corpse-decay step runs
after the death-processing step.  `process_combat_claimOrder` applies the
passes in that claimed order; on a state containing an entity that dies
this tick it produces a corpse with `hp = decay_ticks - 1` — violating
the claim's own consequence — and differs from the source's
`process_combat`, which decays first and leaves the new corpse at the
full `decay_ticks`. -/
theorem process_combat_decay_not_after_deaths :
    (process_combat_claimOrder stateWithDeadAnt).entities ≠
        (process_combat stateWithDeadAnt).entities ∧
      (process_combat stateWithDeadAnt).entities.map (fun e => e.hp) =
        [CORPSE_DECAY_TICKS] ∧
      (process_combat_claimOrder stateWithDeadAnt).entities.map
          (fun e => e.hp) = [CORPSE_DECAY_TICKS - 1] := by
  refine ⟨by decide, by decide, by decide⟩

/-- C5 amended: within every tick the corpse-decay step runs before
auto-attack and death processing (`process_combat` is decay, then
attack, then deaths), so a corpse created by a death on tick N is not
decremented and not removed on tick N: every corpse in the output of
`process_combat` whose id did not exist in the input state has
`hp = decay_ticks`. -/
theorem process_combat_order_correct :
    (∀ s, process_combat s =
        process_deaths (auto_attack (decay_corpses s))) ∧
      (∀ (s : GameState) (e : Entity), e ∈ (process_combat s).entities →
        e.entity_type = EntityType.CORPSE →
        (∀ e₀ ∈ s.entities, e₀.entity_id ≠ e.entity_id) →
        e.hp = CORPSE_DECAY_TICKS) := by
  refine ⟨fun s => rfl, ?_⟩
  intro s e he _hcorpse hfresh
  rcases mem_process_deaths (s := auto_attack (decay_corpses s)) he with
    hmem | ⟨_, hhp⟩
  · obtain ⟨e₁, he₁, hid₁⟩ := auto_attack_sameIds (decay_corpses s) e hmem
    obtain ⟨e₀, he₀, hid₀⟩ := decay_corpses_sameIds s e₁ he₁
    exact absurd (hid₀.trans hid₁) (hfresh e₀ he₀)
  · exact hhp

/-- C5 witness: the amended theorem evaluated on the concrete
one-dead-ant state; the corpse created on that tick keeps the full decay
countdown. -/
theorem process_combat_order_correct_witness :
    freshCorpse ∈ (process_combat stateWithDeadAnt).entities ∧
      freshCorpse.hp = CORPSE_DECAY_TICKS :=
  ⟨by decide,
   process_combat_order_correct.2 stateWithDeadAnt freshCorpse (by decide)
     (by decide) (by decide)⟩

/-! ## Tile-map pointwise lemmas -/

theorem set_tile_width (tm : TileMap) (x y : ℤ) (v : TileType) :
    (tm.set_tile x y v).width = tm.width := by
  unfold TileMap.set_tile
  split <;> rfl

theorem set_tile_height (tm : TileMap) (x y : ℤ) (v : TileType) :
    (tm.set_tile x y v).height = tm.height := by
  unfold TileMap.set_tile
  split <;> rfl

/-- Flat row-major indices decompose uniquely. -/
theorem rowcol_inj {w c d ym yn : ℕ} (hc : c < w) (hd : d < w)
    (h : ym * w + c = yn * w + d) : ym = yn ∧ c = d := by
  have hw : 0 < w := Nat.pos_of_ne_zero (by omega)
  have e1 : (ym * w + c) / w = ym := by
    rw [Nat.mul_comm ym w, Nat.mul_add_div hw, Nat.div_eq_of_lt hc]
    omega
  have e2 : (yn * w + d) / w = yn := by
    rw [Nat.mul_comm yn w, Nat.mul_add_div hw, Nat.div_eq_of_lt hd]
    omega
  have hy : ym = yn := by rw [← e1, ← e2, h]
  subst hy
  exact ⟨rfl, by omega⟩

theorem get_set_same {tm : TileMap} {x y : ℤ} (v : TileType)
    (hx : 0 ≤ x) (hx' : x < tm.width) (hy : 0 ≤ y) (hy' : y < tm.height) :
    (tm.set_tile x y v).get_tile x y = v := by
  have hin : 0 ≤ x ∧ x < (tm.width : ℤ) ∧ 0 ≤ y ∧ y < (tm.height : ℤ) :=
    ⟨hx, hx', hy, hy'⟩
  unfold TileMap.set_tile TileMap.get_tile
  rw [if_pos hin]
  dsimp only
  rw [if_pos hin]
  simp

theorem get_set_ne {tm : TileMap} {x y a b : ℤ} (v : TileType)
    (hne : (a, b) ≠ (x, y)) :
    (tm.set_tile x y v).get_tile a b = tm.get_tile a b := by
  unfold TileMap.set_tile TileMap.get_tile
  split
  · next hin =>
    dsimp only
    split
    · next hin2 =>
      rw [if_neg]
      intro hidx
      obtain ⟨hx1, hx2, hy1, hy2⟩ := hin
      obtain ⟨ha1, ha2, hb1, hb2⟩ := hin2
      have hwa : a.toNat < tm.width := by omega
      have hwx : x.toNat < tm.width := by omega
      obtain ⟨hby, hax⟩ := rowcol_inj hwa hwx hidx
      exact hne (by simp only [Prod.mk.injEq]; omega)
    · rfl
  · rfl

theorem setTilesConst_width (ps : List (ℤ × ℤ)) (v : TileType) :
    ∀ tm, (setTilesConst tm ps v).width = tm.width := by
  induction ps with
  | nil => intro tm; rfl
  | cons p rest ih =>
    intro tm
    show (setTilesConst (tm.set_tile p.1 p.2 v) rest v).width = tm.width
    rw [ih, set_tile_width]

theorem setTilesConst_height (ps : List (ℤ × ℤ)) (v : TileType) :
    ∀ tm, (setTilesConst tm ps v).height = tm.height := by
  induction ps with
  | nil => intro tm; rfl
  | cons p rest ih =>
    intro tm
    show (setTilesConst (tm.set_tile p.1 p.2 v) rest v).height = tm.height
    rw [ih, set_tile_height]

theorem setTilesConst_get_not_mem (v : TileType) {a b : ℤ} :
    ∀ (ps : List (ℤ × ℤ)) (tm : TileMap), (a, b) ∉ ps →
      (setTilesConst tm ps v).get_tile a b = tm.get_tile a b := by
  intro ps
  induction ps with
  | nil => intro tm _; rfl
  | cons p rest ih =>
    intro tm hmem
    show (setTilesConst (tm.set_tile p.1 p.2 v) rest v).get_tile a b = _
    rw [ih _ (fun h => hmem (List.mem_cons_of_mem p h))]
    exact get_set_ne v (fun h => hmem (h ▸ List.mem_cons_self p rest))

theorem setTilesConst_get_mem (v : TileType) {a b : ℤ} :
    ∀ (ps : List (ℤ × ℤ)) (tm : TileMap), (a, b) ∈ ps →
      0 ≤ a → a < tm.width → 0 ≤ b → b < tm.height →
      (setTilesConst tm ps v).get_tile a b = v := by
  intro ps
  induction ps with
  | nil => intro tm h; exact absurd h (by simp)
  | cons p rest ih =>
    intro tm hmem ha ha' hb hb'
    show (setTilesConst (tm.set_tile p.1 p.2 v) rest v).get_tile a b = v
    by_cases hr : (a, b) ∈ rest
    · exact ih _ hr ha (by rw [set_tile_width]; exact ha') hb
        (by rw [set_tile_height]; exact hb')
    · have hp : (a, b) = p := by
        rcases List.mem_cons.mp hmem with h | h
        · exact h
        · exact absurd h hr
      rw [setTilesConst_get_not_mem v rest _ hr]
      subst hp
      exact get_set_same v ha ha' hb hb'

/-- A fold preserves any invariant its step preserves. -/
theorem foldl_preserve {α β : Type} {P : α → Prop} {step : α → β → α}
    (hs : ∀ a b, P a → P (step a b)) :
    ∀ (l : List β) (a : α), P a → P (l.foldl step a) := by
  intro l
  induction l with
  | nil => intro a h; exact h
  | cons b rest ih => intro a h; exact ih (step a b) (hs a b h)

/-! ## Dimension preservation through map generation -/

theorem scatterStep_dims (acc : TileMap × ℕ) (x y : ℤ) :
    (scatterStep acc x y).1.width = acc.1.width ∧
      (scatterStep acc x y).1.height = acc.1.height := by
  unfold scatterStep
  by_cases h : (lcg_next acc.2).2 % 100 < 45
  · rw [if_pos h]
    exact ⟨set_tile_width _ _ _ _, set_tile_height _ _ _ _⟩
  · rw [if_neg h]
    exact ⟨rfl, rfl⟩

theorem scatterRow_dims (l : List ℕ) (y : ℕ) :
    ∀ acc : TileMap × ℕ,
      ((l.foldl (fun acc (x : ℕ) => scatterStep acc (x : ℤ) (y : ℤ))
            acc).1.width = acc.1.width) ∧
        ((l.foldl (fun acc (x : ℕ) => scatterStep acc (x : ℤ) (y : ℤ))
            acc).1.height = acc.1.height) := by
  induction l with
  | nil => exact fun acc => ⟨rfl, rfl⟩
  | cons x rest ih =>
    intro acc
    obtain ⟨hw, hh⟩ := ih (scatterStep acc (x : ℤ) (y : ℤ))
    obtain ⟨hw2, hh2⟩ := scatterStep_dims acc (x : ℤ) (y : ℤ)
    rw [List.foldl_cons]
    exact ⟨hw.trans hw2, hh.trans hh2⟩

theorem scatterRows_dims (ys : List ℕ) (half_w : ℕ) :
    ∀ acc : TileMap × ℕ,
      ((ys.foldl (fun acc (y : ℕ) => (List.range half_w).foldl
          (fun acc (x : ℕ) => scatterStep acc (x : ℤ) (y : ℤ)) acc)
            acc).1.width = acc.1.width) ∧
        ((ys.foldl (fun acc (y : ℕ) => (List.range half_w).foldl
          (fun acc (x : ℕ) => scatterStep acc (x : ℤ) (y : ℤ)) acc)
            acc).1.height = acc.1.height) := by
  induction ys with
  | nil => exact fun acc => ⟨rfl, rfl⟩
  | cons y rest ih =>
    intro acc
    obtain ⟨hw, hh⟩ :=
      ih ((List.range half_w).foldl
        (fun acc (x : ℕ) => scatterStep acc (x : ℤ) (y : ℤ)) acc)
    obtain ⟨hw2, hh2⟩ := scatterRow_dims (List.range half_w) y acc
    exact ⟨hw.trans hw2, hh.trans hh2⟩

theorem scatterPass_width (half_w : ℕ) (start : TileMap × ℕ) :
    (scatterPass half_w start).1.width = start.1.width :=
  (scatterRows_dims (List.range start.1.height) half_w start).1

theorem scatterPass_height (half_w : ℕ) (start : TileMap × ℕ) :
    (scatterPass half_w start).1.height = start.1.height :=
  (scatterRows_dims (List.range start.1.height) half_w start).2

theorem caIter_width (n : ℕ) (tm : TileMap) :
    (caStep^[n] tm).width = tm.width := by
  induction n with
  | zero => rfl
  | succ m ih => rw [Function.iterate_succ_apply']; exact ih

theorem caIter_height (n : ℕ) (tm : TileMap) :
    (caStep^[n] tm).height = tm.height := by
  induction n with
  | zero => rfl
  | succ m ih => rw [Function.iterate_succ_apply']; exact ih

theorem mirrorTiles_width (tm : TileMap) : (mirrorTiles tm).width = tm.width :=
  rfl

theorem mirrorTiles_height (tm : TileMap) :
    (mirrorTiles tm).height = tm.height := rfl

theorem borderize_width (tm : TileMap) : (borderize tm).width = tm.width :=
  setTilesConst_width _ _ _

theorem borderize_height (tm : TileMap) : (borderize tm).height = tm.height :=
  setTilesConst_height _ _ _

theorem clear_symmetric_width (tm : TileMap) (cx cy : ℤ) (r : ℕ) :
    (clear_symmetric tm cx cy r).width = tm.width :=
  setTilesConst_width _ _ _

theorem clear_symmetric_height (tm : TileMap) (cx cy : ℤ) (r : ℕ) :
    (clear_symmetric tm cx cy r).height = tm.height :=
  setTilesConst_height _ _ _

theorem generate_map_width (seed w h : ℕ) :
    (generate_map seed w h).width = w := by
  simp only [generate_map, clear_symmetric_width, borderize_width,
    mirrorTiles_width, caIter_width, scatterPass_width]

theorem generate_map_height (seed w h : ℕ) :
    (generate_map seed w h).height = h := by
  simp only [generate_map, clear_symmetric_height, borderize_height,
    mirrorTiles_height, caIter_height, scatterPass_height]

/-! ## The mirror pass establishes symmetry -/

theorem mirrorRow_char (w y : ℕ) (hw : 0 < w) :
    ∀ (k : ℕ), k ≤ (w + 1) / 2 → ∀ (t : ℕ → TileType),
      (∀ i, (∀ x, x < k → i ≠ y * w + (w - 1 - x)) →
        mirrorRow w y k t i = t i) ∧
      (∀ x, x < k →
        mirrorRow w y k t (y * w + (w - 1 - x)) = t (y * w + x)) := by
  intro k
  induction k with
  | zero =>
    intro _ t
    exact ⟨fun i _ => rfl, fun x hx => absurd hx (Nat.not_lt_zero x)⟩
  | succ k ih =>
    intro hk t
    obtain ⟨ih1, ih2⟩ := ih (by omega) t
    have hstep : mirrorRow w y (k + 1) t =
        mirrorStep w (mirrorRow w y k t) y k := by
      unfold mirrorRow
      rw [List.range_succ, List.foldl_append, List.foldl_cons, List.foldl_nil]
    constructor
    · intro i hi
      rw [hstep]
      unfold mirrorStep
      rw [if_neg (hi k (by omega))]
      exact ih1 i (fun x hx => hi x (by omega))
    · intro x hx
      rw [hstep]
      unfold mirrorStep
      by_cases hxk : x = k
      · subst hxk
        rw [if_pos rfl]
        exact ih1 (y * w + x)
          (fun x' hx' hcontra => by omega)
      · rw [if_neg (by omega : ¬(y * w + (w - 1 - x) = y * w + (w - 1 - k)))]
        exact ih2 x (by omega)

theorem mirrorRow_outside (w y k : ℕ) (hk : k ≤ (w + 1) / 2) (hw : 0 < w)
    (t : ℕ → TileType) :
    ∀ i, (i < y * w ∨ y * w + w ≤ i) → mirrorRow w y k t i = t i := by
  intro i hi
  exact (mirrorRow_char w y hw k hk t).1 i (fun x hx => by omega)

theorem mirrorFoldAux_char (w : ℕ) (hw : 0 < w) :
    ∀ (m : ℕ) (t : ℕ → TileType) (y c : ℕ), c < w →
      ((List.range m).foldl (fun t y => mirrorRow w y ((w + 1) / 2) t) t)
          (y * w + c) =
        if y < m ∧ w - (w + 1) / 2 ≤ c then t (y * w + (w - 1 - c))
        else t (y * w + c) := by
  intro m
  induction m with
  | zero =>
    intro t y c hc
    rw [if_neg (by omega)]
    rfl
  | succ m ih =>
    intro t y c hc
    rw [List.range_succ, List.foldl_append, List.foldl_cons, List.foldl_nil]
    by_cases hy : y = m
    · subst hy
      by_cases hcge : w - (w + 1) / 2 ≤ c
      · have hx : w - 1 - c < (w + 1) / 2 := by omega
        have h2 := (mirrorRow_char w y hw ((w + 1) / 2) le_rfl
          ((List.range y).foldl (fun t y => mirrorRow w y ((w + 1) / 2) t) t)).2
          (w - 1 - c) hx
        rw [(by omega : w - 1 - (w - 1 - c) = c)] at h2
        rw [h2, ih t y (w - 1 - c) (by omega), if_neg (by omega),
          if_pos ⟨by omega, hcge⟩]
      · have h1 := (mirrorRow_char w y hw ((w + 1) / 2) le_rfl
          ((List.range y).foldl (fun t y => mirrorRow w y ((w + 1) / 2) t) t)).1
          (y * w + c) (fun x hx => by omega)
        rw [h1, ih t y c hc, if_neg (by omega), if_neg (by omega)]
    · have hrow : y * w + c < m * w ∨ m * w + w ≤ y * w + c := by
        rcases Nat.lt_or_ge y m with hlt | hge
        · left
          calc y * w + c < y * w + w := by omega
            _ = (y + 1) * w := by ring
            _ ≤ m * w := Nat.mul_le_mul_right w (by omega)
        · right
          have hge' : m + 1 ≤ y := by omega
          calc m * w + w = (m + 1) * w := by ring
            _ ≤ y * w := Nat.mul_le_mul_right w hge'
            _ ≤ y * w + c := by omega
      rw [mirrorRow_outside w m ((w + 1) / 2) le_rfl hw _ _ hrow,
        ih t y c hc]
      by_cases hcond : y < m ∧ w - (w + 1) / 2 ≤ c
      · rw [if_pos hcond, if_pos ⟨by omega, hcond.2⟩]
      · rw [if_neg hcond, if_neg (by omega)]

theorem mirrorTiles_symmetric (tm : TileMap) : SymmetricMap (mirrorTiles tm) := by
  intro x y hx hy
  have hw : 0 < tm.width := by
    have := hx
    rw [mirrorTiles_width] at this
    omega
  rw [mirrorTiles_width] at hx
  rw [mirrorTiles_height] at hy
  have hx2 : tm.width - 1 - x < tm.width := by omega
  unfold TileMap.get_tile
  rw [if_pos (by
    constructor
    · omega
    · refine ⟨?_, by omega, ?_⟩
      · show (x : ℤ) < (mirrorTiles tm).width
        rw [mirrorTiles_width]
        omega
      · show (y : ℤ) < (mirrorTiles tm).height
        rw [mirrorTiles_height]
        omega)]
  rw [if_pos (by
    constructor
    · omega
    · refine ⟨?_, by omega, ?_⟩
      · show ((mirrorTiles tm).width - 1 - x : ℕ) < ((mirrorTiles tm).width : ℤ)
        rw [mirrorTiles_width]
        omega
      · show (y : ℤ) < (mirrorTiles tm).height
        rw [mirrorTiles_height]
        omega)]
  show mirrorFold tm.width tm.height ((tm.width + 1) / 2) tm.tiles _ =
    mirrorFold tm.width tm.height ((tm.width + 1) / 2) tm.tiles _
  unfold mirrorFold
  have e1 : ((y : ℤ).toNat * (mirrorTiles tm).width + ((x : ℤ)).toNat) =
      y * tm.width + x := by
    simp only [mirrorTiles_width, Int.toNat_natCast]
  have e2 : ((y : ℤ).toNat * (mirrorTiles tm).width +
      (((mirrorTiles tm).width - 1 - x : ℕ) : ℤ).toNat) =
      y * tm.width + (tm.width - 1 - x) := by
    simp only [mirrorTiles_width, Int.toNat_natCast]
  rw [e1, e2]
  rw [mirrorFoldAux_char tm.width hw tm.height tm.tiles y x hx,
    mirrorFoldAux_char tm.width hw tm.height tm.tiles y (tm.width - 1 - x) hx2]
  by_cases hc1 : tm.width - (tm.width + 1) / 2 ≤ x
  · rw [if_pos ⟨hy, hc1⟩]
    by_cases hc2 : tm.width - (tm.width + 1) / 2 ≤ tm.width - 1 - x
    · rw [if_pos ⟨hy, hc2⟩]
      have hidx : y * tm.width + (tm.width - 1 - (tm.width - 1 - x)) =
          y * tm.width + (tm.width - 1 - x) := by omega
      rw [hidx]
    · rw [if_neg (fun h => hc2 h.2)]
  · rw [if_neg (fun h => hc1 h.2)]
    rw [if_pos ⟨hy, by omega⟩]
    rw [(by omega : tm.width - 1 - (tm.width - 1 - x) = x)]

/-! ## Constant writes at a mirror-closed position set preserve symmetry -/

theorem symmetric_setTilesConst {tm : TileMap} {ps : List (ℤ × ℤ)}
    {v : TileType} (hsym : SymmetricMap tm)
    (hclosed : ∀ p ∈ ps, ((tm.width : ℤ) - 1 - p.1, p.2) ∈ ps) :
    SymmetricMap (setTilesConst tm ps v) := by
  intro x y hx hy
  rw [setTilesConst_width] at hx
  rw [setTilesConst_height] at hy
  rw [setTilesConst_width]
  have hmw : (((tm.width - 1 - x : ℕ)) : ℤ) = (tm.width : ℤ) - 1 - x := by
    omega
  by_cases hmem : ((x : ℤ), (y : ℤ)) ∈ ps
  · have hmem2 : (((tm.width - 1 - x : ℕ) : ℤ), (y : ℤ)) ∈ ps := by
      rw [hmw]
      exact hclosed _ hmem
    rw [setTilesConst_get_mem v ps tm hmem (by omega) (by omega) (by omega)
      (by omega)]
    rw [setTilesConst_get_mem v ps tm hmem2 (by omega) (by omega) (by omega)
      (by omega)]
  · have hmem2 : (((tm.width - 1 - x : ℕ) : ℤ), (y : ℤ)) ∉ ps := by
      intro h2
      apply hmem
      have h3 := hclosed _ h2
      have : ((tm.width : ℤ) - 1 - ((tm.width - 1 - x : ℕ) : ℤ)) = (x : ℤ) := by
        omega
      rw [this] at h3
      exact h3
    rw [setTilesConst_get_not_mem v ps tm hmem,
      setTilesConst_get_not_mem v ps tm hmem2]
    exact hsym x y hx hy

/-! ## The written position sets are mirror-closed -/

theorem borderPositions_closed (w h : ℕ) :
    ∀ p ∈ borderPositions w h,
      ((w : ℤ) - 1 - p.1, p.2) ∈ borderPositions w h := by
  intro p hp
  unfold borderPositions at *
  rcases List.mem_append.mp hp with hrow | hcol
  · obtain ⟨x, hxmem, hpx⟩ := List.mem_flatMap.mp hrow
    have hxw : x < w := List.mem_range.mp hxmem
    refine List.mem_append.mpr (Or.inl (List.mem_flatMap.mpr
      ⟨w - 1 - x, List.mem_range.mpr (by omega), ?_⟩))
    simp only [List.mem_cons, List.not_mem_nil, or_false] at hpx
    simp only [List.mem_cons, List.not_mem_nil, or_false]
    rcases hpx with rfl | rfl
    · left
      simp only [Prod.mk.injEq]
      exact ⟨by omega, by trivial⟩
    · right
      simp only [Prod.mk.injEq]
      exact ⟨by omega, by trivial⟩
  · obtain ⟨y, hymem, hpy⟩ := List.mem_flatMap.mp hcol
    refine List.mem_append.mpr (Or.inr (List.mem_flatMap.mpr ⟨y, hymem, ?_⟩))
    simp only [List.mem_cons, List.not_mem_nil, or_false] at hpy
    simp only [List.mem_cons, List.not_mem_nil, or_false]
    rcases hpy with rfl | rfl
    · right
      simp only [Prod.mk.injEq]
      exact ⟨by omega, by trivial⟩
    · left
      simp only [Prod.mk.injEq]
      exact ⟨by omega, by trivial⟩

theorem clearPositions_closed (w : ℕ) (cx cy : ℤ) (r : ℕ) :
    ∀ p ∈ clearPositions w cx cy r,
      ((w : ℤ) - 1 - p.1, p.2) ∈ clearPositions w cx cy r := by
  intro p hp
  unfold clearPositions at *
  obtain ⟨d, hdmem, hpd⟩ := List.mem_flatMap.mp hp
  obtain ⟨i, himem, hrow⟩ := List.mem_flatMap.mp hdmem
  obtain ⟨j, hjmem, hd⟩ := List.mem_map.mp hrow
  have hir := List.mem_range.mp himem
  have hjr := List.mem_range.mp hjmem
  by_cases hcond : d.2 * d.2 + d.1 * d.1 ≤ (r : ℤ) * r
  · rw [if_pos hcond] at hpd
    have hd1 : d.1 = (i : ℤ) - r := by rw [← hd]
    have hd2 : d.2 = (j : ℤ) - r := by rw [← hd]
    have hmem2 : ((d.1, -d.2) : ℤ × ℤ) ∈ (List.range (2 * r + 1)).flatMap
        (fun (i : ℕ) => (List.range (2 * r + 1)).map
          (fun (j : ℕ) => ((i : ℤ) - r, (j : ℤ) - r))) := by
      refine List.mem_flatMap.mpr ⟨i, himem, ?_⟩
      refine List.mem_map.mpr ⟨2 * r - j, List.mem_range.mpr (by omega), ?_⟩
      simp only [Prod.mk.injEq]
      constructor
      · rw [hd1]
      · rw [hd2]
        omega
    refine List.mem_flatMap.mpr ⟨(d.1, -d.2), hmem2, ?_⟩
    dsimp only
    rw [if_pos (by simpa [neg_mul_neg] using hcond)]
    simp only [List.mem_cons, List.not_mem_nil, or_false] at hpd
    simp only [List.mem_cons, List.not_mem_nil, or_false]
    rcases hpd with rfl | rfl
    · right
      simp only [Prod.mk.injEq]
      exact ⟨by ring, by trivial⟩
    · left
      simp only [Prod.mk.injEq]
      exact ⟨by ring, by trivial⟩
  · rw [if_neg hcond] at hpd
    exact absurd hpd (by simp)

/-! ## Claim C7 — map symmetry -/

theorem symmetric_set_starts (tm : TileMap) (v : List (ℤ × ℤ))
    (h : SymmetricMap tm) : SymmetricMap { tm with start_positions := v } := h

theorem symmetric_set_hive_sites (tm : TileMap) (v : List (ℤ × ℤ))
    (h : SymmetricMap tm) :
    SymmetricMap { tm with hive_site_positions := v } := h

theorem generate_map_symmetric_aux (seed w h : ℕ) :
    SymmetricMap (generate_map seed w h) := by
  simp only [generate_map]
  refine symmetric_setTilesConst ?_ (clearPositions_closed _ _ _ _)
  refine symmetric_setTilesConst ?_ (clearPositions_closed _ _ _ _)
  apply symmetric_set_hive_sites
  refine symmetric_setTilesConst ?_ (clearPositions_closed _ _ _ _)
  apply symmetric_set_starts
  refine symmetric_setTilesConst ?_ (borderPositions_closed _ _)
  exact mirrorTiles_symmetric _

/-- C7: for every seed, width and height, the tile grid produced by
`generate_map` is horizontally symmetric after all generation steps
(scatter, smoothing, mirroring, border rewrite, and the cleared disks
around the start positions and hive sites):
`tile(x, y) = tile(w-1-x, y)` for every in-bounds coordinate. -/
theorem generate_map_symmetric (seed w h x y : ℕ) (hx : x < w) (hy : y < h) :
    (generate_map seed w h).get_tile x y =
      (generate_map seed w h).get_tile ((w - 1 - x : ℕ)) y := by
  have hsym := generate_map_symmetric_aux seed w h
  have hwidth := generate_map_width seed w h
  have hheight := generate_map_height seed w h
  have hres := hsym x y (by rw [hwidth]; exact hx) (by rw [hheight]; exact hy)
  rw [hwidth] at hres
  exact hres

/-- C7 witness: the symmetry theorem evaluated at a concrete seed, map
size and coordinate. -/
theorem generate_map_symmetric_witness :
    (generate_map 42 20 12).get_tile 3 2 =
      (generate_map 42 20 12).get_tile ((20 - 1 - 3 : ℕ)) 2 :=
  generate_map_symmetric 42 20 12 3 2 (by decide) (by decide)

/-! ## Association-list dictionary lemmas -/

theorem dget_cons {α : Type} (p : (ℤ × ℤ) × α) (rest : List ((ℤ × ℤ) × α))
    (k : ℤ × ℤ) :
    dget (p :: rest) k = if p.1 = k then some p.2 else dget rest k := by
  by_cases hp : p.1 = k
  · rw [if_pos hp]
    simp only [dget]
    rw [List.find?_cons_of_pos _ (by simp [hp])]
    rfl
  · rw [if_neg hp]
    simp only [dget]
    rw [List.find?_cons_of_neg _ (by simp [hp])]

theorem dget_dset_same {α : Type} :
    ∀ (d : List ((ℤ × ℤ) × α)) (k : ℤ × ℤ) (v : α),
      dget (dset d k v) k = some v := by
  intro d
  induction d with
  | nil => intro k v; simp [dget, dset]
  | cons p rest ih =>
    intro k v
    by_cases hp : p.1 = k
    · simp [dset, hp, dget_cons]
    · simp only [dset, if_neg hp, dget_cons, if_neg hp]
      exact ih k v

theorem dget_dset_ne {α : Type} :
    ∀ (d : List ((ℤ × ℤ) × α)) (k k' : ℤ × ℤ) (v : α), k' ≠ k →
      dget (dset d k v) k' = dget d k' := by
  intro d
  induction d with
  | nil =>
    intro k k' v h
    have hd : dset ([] : List ((ℤ × ℤ) × α)) k v = [(k, v)] := rfl
    rw [hd, dget_cons]
    have hne : ¬((k, v).1 = k') := by
      intro hk
      exact h (by simpa using hk.symm)
    rw [if_neg hne]
  | cons p rest ih =>
    intro k k' v h
    by_cases hp : p.1 = k
    · have hd : dset (p :: rest) k v = (k, v) :: rest := by simp [dset, hp]
      rw [hd, dget_cons, dget_cons]
      have hne : ¬((k, v).1 = k') := by
        intro hk
        exact h (by simpa using hk.symm)
      have hne2 : ¬(p.1 = k') := by
        rw [hp]
        intro hk
        exact h hk.symm
      rw [if_neg hne, if_neg hne2]
    · have hd : dset (p :: rest) k v = p :: dset rest k v := by simp [dset, hp]
      rw [hd, dget_cons, dget_cons]
      by_cases hp' : p.1 = k'
      · rw [if_pos hp', if_pos hp']
      · rw [if_neg hp', if_neg hp']
        exact ih k k' v h

theorem dset_length_of_mem {α : Type} :
    ∀ (d : List ((ℤ × ℤ) × α)) (k : ℤ × ℤ) (v w : α), dget d k = some w →
      (dset d k v).length = d.length := by
  intro d
  induction d with
  | nil => intro k v w h; exact absurd h (by simp [dget])
  | cons p rest ih =>
    intro k v w h
    by_cases hp : p.1 = k
    · simp [dset, hp]
    · rw [dget_cons, if_neg hp] at h
      simp only [dset, if_neg hp, List.length_cons]
      rw [ih k v w h]

theorem dset_length_of_new {α : Type} :
    ∀ (d : List ((ℤ × ℤ) × α)) (k : ℤ × ℤ) (v : α), dget d k = none →
      (dset d k v).length = d.length + 1 := by
  intro d
  induction d with
  | nil => intro k v _; rfl
  | cons p rest ih =>
    intro k v h
    rw [dget_cons] at h
    by_cases hp : p.1 = k
    · rw [if_pos hp] at h; exact absurd h (by simp)
    · rw [if_neg hp] at h
      simp only [dset, if_neg hp, List.length_cons]
      rw [ih k v h]

theorem sumG_dset_of_mem :
    ∀ (d : List ((ℤ × ℤ) × ℤ)) (k : ℤ × ℤ) (v w : ℤ), dget d k = some w →
      sumG (dset d k v) + w.toNat = sumG d + v.toNat := by
  intro d
  induction d with
  | nil => intro k v w h; exact absurd h (by simp [dget])
  | cons p rest ih =>
    intro k v w h
    rw [dget_cons] at h
    by_cases hp : p.1 = k
    · rw [if_pos hp] at h
      have hw : p.2 = w := by simpa using h
      simp only [dset, if_pos hp, sumG, List.map_cons, List.sum_cons]
      omega
    · rw [if_neg hp] at h
      simp only [dset, if_neg hp, sumG, List.map_cons, List.sum_cons]
      have := ih k v w h
      simp only [sumG] at this
      omega

theorem sumG_dset_of_new :
    ∀ (d : List ((ℤ × ℤ) × ℤ)) (k : ℤ × ℤ) (v : ℤ), dget d k = none →
      sumG (dset d k v) = sumG d + v.toNat := by
  intro d
  induction d with
  | nil => intro k v _; simp [dset, sumG]
  | cons p rest ih =>
    intro k v h
    rw [dget_cons] at h
    by_cases hp : p.1 = k
    · rw [if_pos hp] at h; exact absurd h (by simp)
    · rw [if_neg hp] at h
      simp only [dset, if_neg hp, sumG, List.map_cons, List.sum_cons]
      have := ih k v h
      simp only [sumG] at this
      omega

theorem keys_dset_sub {α : Type} :
    ∀ (d : List ((ℤ × ℤ) × α)) (k : ℤ × ℤ) (v : α) (x : ℤ × ℤ),
      x ∈ (dset d k v).map (fun e => e.1) →
        x ∈ d.map (fun e => e.1) ∨ x = k := by
  intro d
  induction d with
  | nil => intro k v x h; simp only [dset, List.map_cons, List.map_nil,
      List.mem_singleton] at h; exact Or.inr h
  | cons p rest ih =>
    intro k v x h
    by_cases hp : p.1 = k
    · simp only [dset, if_pos hp, List.map_cons, List.mem_cons] at h
      rcases h with h | h
      · exact Or.inr h
      · exact Or.inl (by simp only [List.map_cons, List.mem_cons]; exact Or.inr h)
    · simp only [dset, if_neg hp, List.map_cons, List.mem_cons] at h
      rcases h with h | h
      · exact Or.inl (by simp only [List.map_cons, List.mem_cons]; exact Or.inl h)
      · rcases ih k v x h with h' | h'
        · exact Or.inl (by simp only [List.map_cons, List.mem_cons]; exact Or.inr h')
        · exact Or.inr h'

theorem keys_nodup_dset {α : Type} :
    ∀ (d : List ((ℤ × ℤ) × α)) (k : ℤ × ℤ) (v : α),
      (d.map (fun e => e.1)).Nodup → ((dset d k v).map (fun e => e.1)).Nodup := by
  intro d
  induction d with
  | nil => intro k v _; simp [dset]
  | cons p rest ih =>
    intro k v h
    simp only [List.map_cons, List.nodup_cons] at h
    by_cases hp : p.1 = k
    · simp only [dset, if_pos hp, List.map_cons, List.nodup_cons]
      exact ⟨hp ▸ h.1, h.2⟩
    · simp only [dset, if_neg hp, List.map_cons, List.nodup_cons]
      refine ⟨?_, ih k v h.2⟩
      intro hmem
      rcases keys_dset_sub rest k v p.1 hmem with h' | h'
      · exact h.1 h'
      · exact hp h'

theorem dget_isSome_of_mem_keys {α : Type} :
    ∀ (d : List ((ℤ × ℤ) × α)) (k : ℤ × ℤ),
      k ∈ d.map (fun e => e.1) → (dget d k).isSome := by
  intro d
  induction d with
  | nil => intro k h; simp at h
  | cons p rest ih =>
    intro k h
    rw [dget_cons]
    by_cases hp : p.1 = k
    · rw [if_pos hp]; rfl
    · rw [if_neg hp]
      simp only [List.map_cons, List.mem_cons] at h
      rcases h with h | h
      · exact absurd h.symm hp
      · exact ih k h

theorem mem_keys_of_dget_isSome {α : Type} :
    ∀ (d : List ((ℤ × ℤ) × α)) (k : ℤ × ℤ),
      (dget d k).isSome → k ∈ d.map (fun e => e.1) := by
  intro d
  induction d with
  | nil => intro k h; simp [dget] at h
  | cons p rest ih =>
    intro k h
    rw [dget_cons] at h
    simp only [List.map_cons, List.mem_cons]
    by_cases hp : p.1 = k
    · exact Or.inl hp.symm
    · rw [if_neg hp] at h
      exact Or.inr (ih k h)

/-! ## Pop-min lemmas -/

theorem minEntry_mem :
    ∀ (es : List (ℤ × ℤ × ℤ × ℤ)) (e : ℤ × ℤ × ℤ × ℤ),
      minEntry es e ∈ e :: es := by
  intro es
  induction es with
  | nil => intro e; simp [minEntry]
  | cons x rest ih =>
    intro e
    have hstep : minEntry (x :: rest) e =
        minEntry rest (if entryLt x e then x else e) := by
      simp only [minEntry, List.foldl_cons]
    rw [hstep]
    by_cases h : entryLt x e
    · rw [if_pos h]
      have hx := ih x
      rcases List.mem_cons.mp hx with h' | h'
      · rw [h']
        exact List.mem_cons_of_mem _ (List.mem_cons_self _ _)
      · exact List.mem_cons_of_mem _ (List.mem_cons_of_mem _ h')
    · rw [if_neg h]
      have hx := ih e
      rcases List.mem_cons.mp hx with h' | h'
      · rw [h']
        exact List.mem_cons_self _ _
      · exact List.mem_cons_of_mem _ (List.mem_cons_of_mem _ h')

theorem removeFirst_perm :
    ∀ (l : List (ℤ × ℤ × ℤ × ℤ)) (m : ℤ × ℤ × ℤ × ℤ), m ∈ l →
      l.Perm (m :: removeFirst l m) := by
  intro l
  induction l with
  | nil => intro m h; simp at h
  | cons a rest ih =>
    intro m h
    by_cases ha : a = m
    · subst ha
      have hr : removeFirst (a :: rest) a = rest := by simp [removeFirst]
      rw [hr]
    · have hm : m ∈ rest := by
        rcases List.mem_cons.mp h with h' | h'
        · exact absurd h'.symm ha
        · exact h'
      have hr : removeFirst (a :: rest) m = a :: removeFirst rest m := by
        simp only [removeFirst, if_neg ha]
      rw [hr]
      exact ((ih m hm).cons a).trans (List.Perm.swap m a (removeFirst rest m))

theorem popMin_perm (l : List (ℤ × ℤ × ℤ × ℤ)) (e : ℤ × ℤ × ℤ × ℤ)
    (rest : List (ℤ × ℤ × ℤ × ℤ)) (h : popMin l = some (e, rest)) :
    l.Perm (e :: rest) := by
  cases l with
  | nil => simp [popMin] at h
  | cons a t =>
    simp only [popMin, Option.some.injEq, Prod.mk.injEq] at h
    obtain ⟨he, hrest⟩ := h
    subst he
    subst hrest
    exact removeFirst_perm (a :: t) (minEntry t a) (minEntry_mem t a)

theorem popMin_none (l : List (ℤ × ℤ × ℤ × ℤ)) (h : popMin l = none) :
    l = [] := by
  cases l with
  | nil => rfl
  | cons a t => simp [popMin] at h

/-! ## Neighbor and key-count facts -/

theorem neighbors_facts :
    ∀ d ∈ NEIGHBORS, 0 < d.2.2 ∧ d.2.2 ≤ 1414 ∧ ¬(d.1 = 0 ∧ d.2.1 = 0) := by
  decide

theorem walkable_bounds (tm : TileMap) (x y : ℤ)
    (h : tm.is_walkable x y = true) :
    0 ≤ x ∧ x < tm.width ∧ 0 ≤ y ∧ y < tm.height := by
  by_cases hb : 0 ≤ x ∧ x < tm.width ∧ 0 ≤ y ∧ y < tm.height
  · exact hb
  · exfalso
    simp only [TileMap.is_walkable, TileMap.get_tile, if_neg hb] at h
    exact Bool.false_ne_true h

theorem keys_length_le_area (tm : TileMap) (d : List ((ℤ × ℤ) × ℤ))
    (hn : (d.map (fun e => e.1)).Nodup)
    (hw : ∀ k ∈ d.map (fun e => e.1),
      0 ≤ k.1 ∧ k.1 < (tm.width : ℤ) ∧ 0 ≤ k.2 ∧ k.2 < (tm.height : ℤ)) :
    d.length ≤ tm.width * tm.height := by
  have hlen : d.length = (d.map (fun e => e.1)).length := by
    rw [List.length_map]
  rw [hlen, ← List.toFinset_card_of_nodup hn]
  have hsub : (d.map (fun e => e.1)).toFinset ⊆
      (Finset.Ico (0 : ℤ) tm.width) ×ˢ (Finset.Ico (0 : ℤ) tm.height) := by
    intro k hk
    have hk' := List.mem_toFinset.mp hk
    obtain ⟨h1, h2, h3, h4⟩ := hw k hk'
    simp only [Finset.mem_product, Finset.mem_Ico]
    exact ⟨⟨h1, h2⟩, h3, h4⟩
  have hcard := Finset.card_le_card hsub
  have hprod : ((Finset.Ico (0 : ℤ) tm.width) ×ˢ
      (Finset.Ico (0 : ℤ) tm.height)).card = tm.width * tm.height := by
    rw [Finset.card_product, Int.card_Ico, Int.card_Ico]
    simp
  rw [hprod] at hcard
  exact hcard

/-! ## Relaxation-step preservation -/

theorem relaxUpdate_props (tm : TileMap) (sx sy gx gy x y g : ℤ)
    (d : ℤ × ℤ × ℤ) (st st' : AState)
    (hd : d ∈ NEIGHBORS) (hC : AInvCore tm sx sy st)
    (hF : ∀ p v, dget st.g_costs p = some v →
      p = (x, y) ∨ frontierOK tm gx gy st p v)
    (hg0 : dget st.g_costs (x, y) = some g)
    (hw0 : tm.is_walkable x y = true)
    (hrel : relaxable tm (x, y) d)
    (hcond : g + d.2.2 <
      (dget st.g_costs (x + d.1, y + d.2.1)).getD (g + d.2.2 + 1))
    (hos : st'.open_set = st.open_set ++
      [(g + d.2.2 + heuristic (x + d.1) (y + d.2.1) gx gy,
        y + d.2.1, x + d.1, g + d.2.2)])
    (hgc : st'.g_costs = dset st.g_costs (x + d.1, y + d.2.1) (g + d.2.2))
    (hcf : st'.came_from = dset st.came_from (x + d.1, y + d.2.1) (x, y)) :
    AInvCore tm sx sy st' ∧
    (∀ p v, dget st'.g_costs p = some v →
      p = (x, y) ∨ frontierOK tm gx gy st' p v) ∧
    dget st'.g_costs (x, y) = some g ∧
    (∀ p, (dget st.g_costs p).isSome = true →
      (dget st'.g_costs p).isSome = true) ∧
    (dget st'.g_costs (x + d.1, y + d.2.1)).isSome = true ∧
    measureM tm st' ≤ measureM tm st := by
  obtain ⟨hc_pos, hc_le, hd0⟩ := neighbors_facts d hd
  have hgnn : (0 : ℤ) ≤ g := hC.g_nonneg _ _ hg0
  have hp'x : ¬((x + d.1, y + d.2.1) = (x, y)) := by
    intro hEq
    rw [Prod.mk.injEq] at hEq
    exact hd0 ⟨by omega, by omega⟩
  have hx'p : ¬((x, y) = (x + d.1, y + d.2.1)) := fun hEq => hp'x hEq.symm
  have holdlt : ∀ w, dget st.g_costs (x + d.1, y + d.2.1) = some w →
      g + d.2.2 < w := by
    intro w hw'
    rw [hw'] at hcond
    simpa using hcond
  have hp's : ¬((x + d.1, y + d.2.1) = (sx, sy)) := by
    intro hEq
    rw [hEq, hC.start_zero] at hcond
    simp only [Option.getD_some] at hcond
    omega
  have hs'p : ¬((sx, sy) = (x + d.1, y + d.2.1)) := fun hEq => hp's hEq.symm
  refine ⟨⟨?_, ?_, ?_, ?_, ?_, ?_, ?_, ?_, ?_⟩, ?_, ?_, ?_, ?_, ?_⟩
  · -- g_nonneg
    intro p v h
    rw [hgc] at h
    by_cases hp : p = (x + d.1, y + d.2.1)
    · rw [hp, dget_dset_same] at h
      have hv : g + d.2.2 = v := by simpa using h
      omega
    · rw [dget_dset_ne _ _ _ _ hp] at h
      exact hC.g_nonneg p v h
  · -- start_zero
    rw [hgc, dget_dset_ne _ _ _ _ hs'p]
    exact hC.start_zero
  · -- keys_nodup
    rw [hgc]
    exact keys_nodup_dset _ _ _ hC.keys_nodup
  · -- keys_walk
    intro p v h
    rw [hgc] at h
    by_cases hp : p = (x + d.1, y + d.2.1)
    · rw [hp]
      exact hrel.1
    · rw [dget_dset_ne _ _ _ _ hp] at h
      exact hC.keys_walk p v h
  · -- cf_start
    rw [hcf, dget_dset_ne _ _ _ _ hs'p]
    exact hC.cf_start
  · -- cf_dom
    intro p v h
    rw [hgc] at h
    by_cases hp : p = (x + d.1, y + d.2.1)
    · exact Or.inr ⟨(x, y), by rw [hcf, hp]; exact dget_dset_same _ _ _⟩
    · rw [dget_dset_ne _ _ _ _ hp] at h
      rcases hC.cf_dom p v h with h' | ⟨q, hq⟩
      · exact Or.inl h'
      · exact Or.inr ⟨q, by rw [hcf, dget_dset_ne _ _ _ _ hp]; exact hq⟩
  · -- cf_step
    intro p q h
    rw [hcf] at h
    by_cases hp : p = (x + d.1, y + d.2.1)
    · rw [hp, dget_dset_same] at h
      have hq : q = (x, y) := by simpa using h.symm
      subst hq
      refine ⟨g + d.2.2, g, ?_, ?_, by omega, ?_⟩
      · rw [hgc, hp]
        exact dget_dset_same _ _ _
      · rw [hgc, dget_dset_ne _ _ _ _ hx'p]
        exact hg0
      · exact ⟨hw0, d, hd, hp, hrel⟩
    · rw [dget_dset_ne _ _ _ _ hp] at h
      obtain ⟨vp, vq, hvp, hvq, hlt, hstep⟩ := hC.cf_step p q h
      by_cases hq' : q = (x + d.1, y + d.2.1)
      · refine ⟨vp, g + d.2.2, ?_, ?_, ?_, hstep⟩
        · rw [hgc, dget_dset_ne _ _ _ _ hp]
          exact hvp
        · rw [hgc, hq']
          exact dget_dset_same _ _ _
        · have := holdlt vq (by rw [← hq']; exact hvq)
          omega
      · exact ⟨vp, vq, by rw [hgc, dget_dset_ne _ _ _ _ hp]; exact hvp,
          by rw [hgc, dget_dset_ne _ _ _ _ hq']; exact hvq, hlt, hstep⟩
  · -- open_g
    intro e' he'
    rw [hos] at he'
    rcases List.mem_append.mp he' with hmem | hmem
    · obtain ⟨v', hv', hle⟩ := hC.open_g e' hmem
      by_cases hn' : nodeOf e' = (x + d.1, y + d.2.1)
      · refine ⟨g + d.2.2, by rw [hgc, hn']; exact dget_dset_same _ _ _, ?_⟩
        have := holdlt v' (by rw [← hn']; exact hv')
        omega
      · exact ⟨v', by rw [hgc, dget_dset_ne _ _ _ _ hn']; exact hv', hle⟩
    · have he : e' = (g + d.2.2 + heuristic (x + d.1) (y + d.2.1) gx gy,
          y + d.2.1, x + d.1, g + d.2.2) := by simpa using hmem
      subst he
      exact ⟨g + d.2.2, by rw [hgc]; exact dget_dset_same _ _ _, le_refl _⟩
  · -- val_bound
    intro p v h
    rw [hgc] at h
    rw [hgc]
    rcases hold : dget st.g_costs (x + d.1, y + d.2.1) with _ | w
    · have hlen := dset_length_of_new st.g_costs _ (g + d.2.2) hold
      rw [hlen]
      by_cases hp : p = (x + d.1, y + d.2.1)
      · rw [hp, dget_dset_same] at h
        have hv : g + d.2.2 = v := by simpa using h
        have hgb := hC.val_bound _ _ hg0
        push_cast
        omega
      · rw [dget_dset_ne _ _ _ _ hp] at h
        have := hC.val_bound p v h
        push_cast
        omega
    · have hlen := dset_length_of_mem st.g_costs _ (g + d.2.2) w hold
      rw [hlen]
      by_cases hp : p = (x + d.1, y + d.2.1)
      · rw [hp, dget_dset_same] at h
        have hv : g + d.2.2 = v := by simpa using h
        have hwb := hC.val_bound _ _ hold
        have := holdlt w hold
        omega
      · rw [dget_dset_ne _ _ _ _ hp] at h
        exact hC.val_bound p v h
  · -- frontier minus the popped node
    intro p v h
    rw [hgc] at h
    by_cases hp : p = (x + d.1, y + d.2.1)
    · rw [hp, dget_dset_same] at h
      have hv : g + d.2.2 = v := by simpa using h
      refine Or.inr (Or.inl ⟨(g + d.2.2 + heuristic (x + d.1) (y + d.2.1) gx gy,
        y + d.2.1, x + d.1, g + d.2.2), ?_, by rw [hp]; rfl, hv⟩)
      rw [hos]
      exact List.mem_append_right _ (by simp)
    · rw [dget_dset_ne _ _ _ _ hp] at h
      rcases hF p v h with h' | h'
      · exact Or.inl h'
      · rcases h' with ⟨e'', he'', hn'', hg''⟩ | ⟨hpg, hcl⟩
        · refine Or.inr (Or.inl ⟨e'', ?_, hn'', hg''⟩)
          rw [hos]
          exact List.mem_append_left _ he''
        · refine Or.inr (Or.inr ⟨hpg, ?_⟩)
          intro d' hd' hrel'
          obtain ⟨vq, hvq⟩ := hcl d' hd' hrel'
          by_cases hq : (p.1 + d'.1, p.2 + d'.2.1) = (x + d.1, y + d.2.1)
          · exact ⟨g + d.2.2, by rw [hgc, hq]; exact dget_dset_same _ _ _⟩
          · exact ⟨vq, by rw [hgc, dget_dset_ne _ _ _ _ hq]; exact hvq⟩
  · -- the popped node keeps its stored cost
    rw [hgc, dget_dset_ne _ _ _ _ hx'p]
    exact hg0
  · -- stored keys persist
    intro p hp
    rw [hgc]
    by_cases hpp : p = (x + d.1, y + d.2.1)
    · rw [hpp, dget_dset_same]
      rfl
    · rw [dget_dset_ne _ _ _ _ hpp]
      exact hp
  · -- the relaxed neighbor now has a stored cost
    rw [hgc, dget_dset_same]
    rfl
  · -- the measure does not increase
    simp only [measureM, phiM]
    rw [hgc, hos]
    simp only [List.length_append, List.length_singleton]
    rcases hold : dget st.g_costs (x + d.1, y + d.2.1) with _ | w
    · have hlen := dset_length_of_new st.g_costs _ (g + d.2.2) hold
      have hsum := sumG_dset_of_new st.g_costs _ (g + d.2.2) hold
      have hnodup' := keys_nodup_dset st.g_costs (x + d.1, y + d.2.1)
        (g + d.2.2) hC.keys_nodup
      have hwalk' : ∀ k ∈ (dset st.g_costs (x + d.1, y + d.2.1)
          (g + d.2.2)).map (fun e => e.1),
          0 ≤ k.1 ∧ k.1 < (tm.width : ℤ) ∧ 0 ≤ k.2 ∧ k.2 < (tm.height : ℤ) := by
        intro k hk
        have hk2 := dget_isSome_of_mem_keys _ _ hk
        by_cases hkp : k = (x + d.1, y + d.2.1)
        · rw [hkp]
          exact walkable_bounds tm (x + d.1) (y + d.2.1) hrel.1
        · rw [dget_dset_ne _ _ _ _ hkp] at hk2
          obtain ⟨v0, hv0⟩ := Option.isSome_iff_exists.mp hk2
          exact walkable_bounds tm k.1 k.2 (hC.keys_walk k v0 hv0)
      have harea := keys_length_le_area tm _ hnodup' hwalk'
      rw [hlen] at harea
      have hgb := hC.val_bound _ _ hg0
      have htn : (g + d.2.2).toNat ≤ 1414 * (st.g_costs.length + 1) := by
        omega
      have hMle : 1414 * (st.g_costs.length + 1) ≤
          1414 * (tm.width * tm.height) := Nat.mul_le_mul_left _ harea
      have hM : MAXG tm = 1414 * (tm.width * tm.height) + 1 := rfl
      rw [hlen, hsum]
      have h5 : tm.width * tm.height - st.g_costs.length =
          (tm.width * tm.height - (st.g_costs.length + 1)) + 1 := by omega
      rw [h5, Nat.mul_succ]
      omega
    · have hlen := dset_length_of_mem st.g_costs _ (g + d.2.2) w hold
      have hsum := sumG_dset_of_mem st.g_costs _ (g + d.2.2) w hold
      have hlt := holdlt w hold
      have hnn := hC.g_nonneg _ _ hold
      rw [hlen]
      omega

theorem relaxStep_props (tm : TileMap) (sx sy gx gy x y g : ℤ)
    (d : ℤ × ℤ × ℤ) (st : AState)
    (hd : d ∈ NEIGHBORS) (hC : AInvCore tm sx sy st)
    (hF : ∀ p v, dget st.g_costs p = some v →
      p = (x, y) ∨ frontierOK tm gx gy st p v)
    (hg0 : dget st.g_costs (x, y) = some g)
    (hw0 : tm.is_walkable x y = true) :
    AInvCore tm sx sy (relaxStep tm gx gy x y g st d) ∧
    (∀ p v, dget (relaxStep tm gx gy x y g st d).g_costs p = some v →
      p = (x, y) ∨ frontierOK tm gx gy (relaxStep tm gx gy x y g st d) p v) ∧
    dget (relaxStep tm gx gy x y g st d).g_costs (x, y) = some g ∧
    (∀ p, (dget st.g_costs p).isSome = true →
      (dget (relaxStep tm gx gy x y g st d).g_costs p).isSome = true) ∧
    (relaxable tm (x, y) d →
      (dget (relaxStep tm gx gy x y g st d).g_costs
        (x + d.1, y + d.2.1)).isSome = true) ∧
    measureM tm (relaxStep tm gx gy x y g st d) ≤ measureM tm st := by
  by_cases hrel : relaxable tm (x, y) d
  · by_cases hcond : g + d.2.2 <
        (dget st.g_costs (x + d.1, y + d.2.1)).getD (g + d.2.2 + 1)
    · have hR : relaxStep tm gx gy x y g st d =
          { open_set := st.open_set ++
              [(g + d.2.2 + heuristic (x + d.1) (y + d.2.1) gx gy,
                y + d.2.1, x + d.1, g + d.2.2)],
            g_costs := dset st.g_costs (x + d.1, y + d.2.1) (g + d.2.2),
            came_from := dset st.came_from (x + d.1, y + d.2.1) (x, y) } := by
        simp only [relaxStep, if_pos hrel, if_pos hcond]
      rw [hR]
      obtain ⟨h1, h2, h3, h4, h5, h6⟩ := relaxUpdate_props tm sx sy gx gy x y g
        d st
        { open_set := st.open_set ++
            [(g + d.2.2 + heuristic (x + d.1) (y + d.2.1) gx gy,
              y + d.2.1, x + d.1, g + d.2.2)],
          g_costs := dset st.g_costs (x + d.1, y + d.2.1) (g + d.2.2),
          came_from := dset st.came_from (x + d.1, y + d.2.1) (x, y) }
        hd hC hF hg0 hw0 hrel hcond rfl rfl rfl
      exact ⟨h1, h2, h3, h4, fun _ => h5, h6⟩
    · have hR : relaxStep tm gx gy x y g st d = st := by
        simp only [relaxStep, if_pos hrel, if_neg hcond]
      rw [hR]
      refine ⟨hC, hF, hg0, fun p h => h, fun _ => ?_, le_refl _⟩
      cases hdg : dget st.g_costs (x + d.1, y + d.2.1) with
      | none =>
        rw [hdg] at hcond
        simp only [Option.getD_none] at hcond
        omega
      | some w => rfl
  · have hR : relaxStep tm gx gy x y g st d = st := by
      simp only [relaxStep, if_neg hrel]
    rw [hR]
    exact ⟨hC, hF, hg0, fun p h => h, fun h => absurd h hrel, le_refl _⟩

theorem relaxFold_props (tm : TileMap) (sx sy gx gy x y g : ℤ) :
    ∀ (ds : List (ℤ × ℤ × ℤ)) (st : AState),
      (∀ d ∈ ds, d ∈ NEIGHBORS) → AInvCore tm sx sy st →
      (∀ p v, dget st.g_costs p = some v →
        p = (x, y) ∨ frontierOK tm gx gy st p v) →
      dget st.g_costs (x, y) = some g →
      tm.is_walkable x y = true →
      AInvCore tm sx sy (ds.foldl (relaxStep tm gx gy x y g) st) ∧
      (∀ p v, dget (ds.foldl (relaxStep tm gx gy x y g) st).g_costs p =
          some v →
        p = (x, y) ∨
          frontierOK tm gx gy (ds.foldl (relaxStep tm gx gy x y g) st) p v) ∧
      (∀ p, (dget st.g_costs p).isSome = true →
        (dget (ds.foldl (relaxStep tm gx gy x y g) st).g_costs p).isSome =
          true) ∧
      (∀ d ∈ ds, relaxable tm (x, y) d →
        (dget (ds.foldl (relaxStep tm gx gy x y g) st).g_costs
          (x + d.1, y + d.2.1)).isSome = true) ∧
      measureM tm (ds.foldl (relaxStep tm gx gy x y g) st) ≤
        measureM tm st := by
  intro ds
  induction ds with
  | nil =>
    intro st _ hC hF hg0 hw0
    exact ⟨hC, hF, fun p h => h, fun d hd => absurd hd (by simp), le_refl _⟩
  | cons d ds ih =>
    intro st hsub hC hF hg0 hw0
    rw [List.foldl_cons]
    have hdN : d ∈ NEIGHBORS := hsub d (List.mem_cons_self _ _)
    obtain ⟨h1, h2, h3, h4, h5, h6⟩ :=
      relaxStep_props tm sx sy gx gy x y g d st hdN hC hF hg0 hw0
    obtain ⟨g1, g2, g3, g4, g5⟩ := ih (relaxStep tm gx gy x y g st d)
      (fun d' hd' => hsub d' (List.mem_cons_of_mem _ hd')) h1 h2 h3 hw0
    refine ⟨g1, g2, fun p hp => g3 p (h4 p hp), ?_, le_trans g5 h6⟩
    intro d' hd' hrel'
    rcases List.mem_cons.mp hd' with hd'' | hd''
    · subst hd''
      exact g3 _ (h5 hrel')
    · exact g4 d' hd'' hrel'

/-! ## Path reconstruction and completeness lemmas -/

theorem chain_append_single {α : Type} {R : α → α → Prop} :
    ∀ (l : List α) (a c : α), List.Chain R a l → R (l.getLastD a) c →
      List.Chain R a (l ++ [c]) := by
  intro l
  induction l with
  | nil =>
    intro a c _ hR
    exact List.Chain.cons hR List.Chain.nil
  | cons b t ih =>
    intro a c hch hR
    rw [List.chain_cons] at hch
    rw [List.cons_append, List.chain_cons]
    refine ⟨hch.1, ih b c hch.2 ?_⟩
    rw [List.getLastD_cons] at hR
    exact hR

theorem walkBack_ok (tm : TileMap) (sx sy : ℤ) (st : AState)
    (hC : AInvCore tm sx sy st) :
    ∀ (fuel : ℕ) (c : ℤ × ℤ) (vc : ℤ) (acc : List (ℤ × ℤ)),
      dget st.g_costs c = some vc → vc.toNat + 2 ≤ fuel →
      ∃ m, walkBack st.came_from sx sy fuel c acc =
          some (m ++ acc.reverse) ∧
        List.Chain (stepOK tm) (sx, sy) m ∧ (sx, sy) ∉ m ∧
        (c = (sx, sy) → m = []) ∧
        (c ≠ (sx, sy) → m ≠ [] ∧ m.getLast? = some c) := by
  intro fuel
  induction fuel with
  | zero => intro c vc acc _ hf; omega
  | succ fuel ih =>
    intro c vc acc hvc hf
    by_cases hcs : c = (sx, sy)
    · refine ⟨[], ?_, List.Chain.nil, by simp, fun _ => rfl,
        fun h => absurd hcs h⟩
      simp only [walkBack, if_pos hcs, List.nil_append]
    · have hdom := hC.cf_dom c vc hvc
      rcases hdom with h' | ⟨q, hq⟩
      · exact absurd h' hcs
      · obtain ⟨vp, vq, hvp, hvq, hlt, hstep⟩ := hC.cf_step c q hq
        have hvpc : vp = vc := by
          rw [hvc] at hvp
          exact (by simpa using hvp : vc = vp).symm
        have hqnn : 0 ≤ vq := hC.g_nonneg q vq hvq
        have hf' : vq.toNat + 2 ≤ fuel := by omega
        obtain ⟨m', hm', hch', hns', hstart', hnstart'⟩ :=
          ih q vq (acc ++ [c]) hvq hf'
        refine ⟨m' ++ [c], ?_, ?_, ?_, fun h => absurd h hcs,
          fun _hne2 => ?_⟩
        · simp only [walkBack, if_neg hcs, hq]
          rw [hm', List.reverse_append]
          simp [List.append_assoc]
        · refine chain_append_single m' (sx, sy) c hch' ?_
          by_cases hqs : q = (sx, sy)
          · rw [hstart' hqs]
            simp only [List.getLastD_nil]
            rw [← hqs]
            exact hstep
          · obtain ⟨hne', hlast'⟩ := hnstart' hqs
            rw [List.getLastD_eq_getLast?, hlast']
            exact hstep
        · intro hmem
          rcases List.mem_append.mp hmem with h' | h'
          · exact hns' h'
          · have hsc : (sx, sy) = c := by simpa using h'
            exact hcs hsc.symm
        · exact ⟨by simp, List.getLast?_concat _⟩

theorem chain_walkable (tm : TileMap) :
    ∀ (l : List (ℤ × ℤ)) (s : ℤ × ℤ), List.Chain (stepOK tm) s l →
      ∀ p ∈ l, tm.is_walkable p.1 p.2 = true := by
  intro l
  induction l with
  | nil => intro s _ p hp; simp at hp
  | cons b t ih =>
    intro s hch p hp
    rw [List.chain_cons] at hch
    obtain ⟨hsb, hbt⟩ := hch
    rcases List.mem_cons.mp hp with h' | h'
    · obtain ⟨_, d, _, hbd, hrel⟩ := hsb
      rw [h', hbd]
      exact hrel.1
    · exact ih b hbt p h'

theorem closed_no_path (tm : TileMap) (sx sy gx gy : ℤ)
    (G : List ((ℤ × ℤ) × ℤ))
    (hstart : (dget G (sx, sy)).isSome = true)
    (hclosed : ∀ p v, dget G p = some v → p ≠ (gx, gy) ∧
      ∀ d ∈ NEIGHBORS, relaxable tm p d →
        ∃ vq, dget G (p.1 + d.1, p.2 + d.2.1) = some vq) :
    ¬ PathExists tm (sx, sy) (gx, gy) := by
  intro ⟨l, hne, hchain, hlast⟩
  have haux : ∀ (t : List (ℤ × ℤ)) (s : ℤ × ℤ),
      (dget G s).isSome = true → List.Chain (stepOK tm) s t →
      ∀ p, t.getLast? = some p → (dget G p).isSome = true := by
    intro t
    induction t with
    | nil => intro s _ _ p hp; simp at hp
    | cons b t ih =>
      intro s hs hch p hp
      rw [List.chain_cons] at hch
      obtain ⟨hsb, hbt⟩ := hch
      obtain ⟨v0, hv0⟩ := Option.isSome_iff_exists.mp hs
      obtain ⟨_, d, hdN, hbd, hrel⟩ := hsb
      have hbdom : (dget G b).isSome = true := by
        obtain ⟨vq, hvq⟩ := (hclosed s v0 hv0).2 d hdN hrel
        rw [hbd, hvq]
        rfl
      cases t with
      | nil =>
        have hpb : p = b := by simpa using hp.symm
        rw [hpb]
        exact hbdom
      | cons u t' =>
        rw [List.getLast?_cons_cons] at hp
        exact ih b hbdom hbt p hp
  have hgdom := haux l (sx, sy) hstart hchain (gx, gy) hlast
  obtain ⟨vg, hvg⟩ := Option.isSome_iff_exists.mp hgdom
  exact (hclosed (gx, gy) vg hvg).1 rfl

/-! ## The main loop invariant theorem -/

theorem astarLoop_ok (tm : TileMap) (sx sy gx gy : ℤ)
    (hsg : ¬((sx, sy) = ((gx, gy) : ℤ × ℤ))) :
    ∀ (fuel : ℕ) (st : AState), AInvCore tm sx sy st →
      (∀ p v, dget st.g_costs p = some v → frontierOK tm gx gy st p v) →
      measureM tm st < fuel →
      ∃ r, astarLoop tm sx sy gx gy fuel st = some r ∧
        (r = [] → ¬ PathExists tm (sx, sy) (gx, gy)) ∧
        (r ≠ [] → List.Chain (stepOK tm) (sx, sy) r ∧
          r.getLast? = some (gx, gy) ∧ (sx, sy) ∉ r) := by
  intro fuel
  induction fuel with
  | zero => intro st _ _ hm; omega
  | succ fuel ih =>
    intro st hC hF hm
    rcases hpop : popMin st.open_set with _ | ⟨e, rest⟩
    · refine ⟨[], ?_, fun _ => ?_, fun h => absurd rfl h⟩
      · simp only [astarLoop, hpop]
      · have hempty : st.open_set = [] := popMin_none _ hpop
        apply closed_no_path tm sx sy gx gy st.g_costs
        · rw [hC.start_zero]
          rfl
        · intro p v hv
          rcases hF p v hv with ⟨e', he', _⟩ | hcl
          · rw [hempty] at he'
            exact absurd he' (List.not_mem_nil _)
          · exact hcl
    · have hperm := popMin_perm _ _ _ hpop
      have heo : e ∈ st.open_set := hperm.mem_iff.mpr (List.mem_cons_self _ _)
      obtain ⟨v0, hv0, hv0le⟩ := hC.open_g e heo
      by_cases hgoal : nodeOf e = ((gx, gy) : ℤ × ℤ)
      · rw [hgoal] at hv0
        obtain ⟨m, hm', hch, hns, _hstart, hnstart⟩ :=
          walkBack_ok tm sx sy st hC (v0.toNat + 2) (gx, gy) v0 [] hv0
            (le_refl _)
        have hgs : ¬(((gx, gy) : ℤ × ℤ) = (sx, sy)) := fun h => hsg h.symm
        obtain ⟨hmne, hmlast⟩ := hnstart hgs
        refine ⟨m, ?_, fun h => absurd h hmne, fun _ => ⟨hch, hmlast, hns⟩⟩
        simp only [astarLoop, hpop]
        rw [if_pos hgoal, hv0]
        simpa using hm'
      · have hlen : st.open_set.length = rest.length + 1 := by
          rw [hperm.length_eq]
          rfl
        have hC' : AInvCore tm sx sy
            { open_set := rest, g_costs := st.g_costs,
              came_from := st.came_from } := by
          refine ⟨hC.g_nonneg, hC.start_zero, hC.keys_nodup, hC.keys_walk,
            hC.cf_start, hC.cf_dom, hC.cf_step, ?_, hC.val_bound⟩
          intro e' he'
          exact hC.open_g e'
            (hperm.mem_iff.mpr (List.mem_cons_of_mem _ he'))
        have hms : measureM tm
            { open_set := rest, g_costs := st.g_costs,
              came_from := st.came_from } + 1 = measureM tm st := by
          simp only [measureM, phiM]
          omega
        by_cases hskip : gOf e > (dget st.g_costs (nodeOf e)).getD (gOf e + 1)
        · have hF' : ∀ p v, dget st.g_costs p = some v →
              frontierOK tm gx gy
                { open_set := rest, g_costs := st.g_costs,
                  came_from := st.came_from } p v := by
            intro p v hv
            rcases hF p v hv with ⟨e'', he'', hn'', hg''⟩ | hcl
            · rcases List.mem_cons.mp (hperm.mem_iff.mp he'') with he3 | he3
              · exfalso
                subst he3
                rw [hn'', hv] at hskip
                simp only [Option.getD_some] at hskip
                omega
              · exact Or.inl ⟨e'', he3, hn'', hg''⟩
            · exact Or.inr hcl
          obtain ⟨r, hr, hre, hrne⟩ := ih
            { open_set := rest, g_costs := st.g_costs,
              came_from := st.came_from } hC' hF' (by omega)
          refine ⟨r, ?_, hre, hrne⟩
          simp only [astarLoop, hpop]
          rw [if_neg hgoal, if_pos hskip]
          exact hr
        · have hveq : v0 = gOf e := by
            rw [hv0] at hskip
            simp only [Option.getD_some] at hskip
            omega
          have heta : ((nodeOf e).1, (nodeOf e).2) = nodeOf e := rfl
          have hg0' : dget st.g_costs ((nodeOf e).1, (nodeOf e).2) =
              some (gOf e) := by
            rw [heta, hv0, hveq]
          have hw0' : tm.is_walkable (nodeOf e).1 (nodeOf e).2 = true :=
            hC.keys_walk _ _ hv0
          have hF' : ∀ p v, dget st.g_costs p = some v →
              p = ((nodeOf e).1, (nodeOf e).2) ∨
              frontierOK tm gx gy
                { open_set := rest, g_costs := st.g_costs,
                  came_from := st.came_from } p v := by
            intro p v hv
            rcases hF p v hv with ⟨e'', he'', hn'', hg''⟩ | hcl
            · rcases List.mem_cons.mp (hperm.mem_iff.mp he'') with he3 | he3
              · subst he3
                exact Or.inl (by rw [heta, hn''])
              · exact Or.inr (Or.inl ⟨e'', he3, hn'', hg''⟩)
            · exact Or.inr (Or.inr hcl)
          obtain ⟨k1, k2, k3, k4, k5⟩ := relaxFold_props tm sx sy gx gy
            (nodeOf e).1 (nodeOf e).2 (gOf e) NEIGHBORS
            { open_set := rest, g_costs := st.g_costs,
              came_from := st.came_from }
            (fun d hd => hd) hC' hF' hg0' hw0'
          have hFfull : ∀ p v,
              dget (NEIGHBORS.foldl
                (relaxStep tm gx gy (nodeOf e).1 (nodeOf e).2 (gOf e))
                { open_set := rest, g_costs := st.g_costs,
                  came_from := st.came_from }).g_costs p = some v →
              frontierOK tm gx gy
                (NEIGHBORS.foldl
                  (relaxStep tm gx gy (nodeOf e).1 (nodeOf e).2 (gOf e))
                  { open_set := rest, g_costs := st.g_costs,
                    came_from := st.came_from }) p v := by
            intro p v hv
            rcases k2 p v hv with hpe | hOK
            · subst hpe
              refine Or.inr ⟨?_, ?_⟩
              · rw [heta]
                exact hgoal
              · intro d hd hrel
                have hsome := k4 d hd hrel
                obtain ⟨vq, hvq⟩ := Option.isSome_iff_exists.mp hsome
                exact ⟨vq, hvq⟩
            · exact hOK
          obtain ⟨r, hr, hre, hrne⟩ := ih
            (NEIGHBORS.foldl
              (relaxStep tm gx gy (nodeOf e).1 (nodeOf e).2 (gOf e))
              { open_set := rest, g_costs := st.g_costs,
                came_from := st.came_from }) k1 hFfull (by omega)
          refine ⟨r, ?_, hre, hrne⟩
          simp only [astarLoop, hpop]
          rw [if_neg hgoal, if_neg hskip]
          exact hr

theorem astarInit_core (tm : TileMap) (sx sy gx gy : ℤ)
    (hw : tm.is_walkable sx sy = true) :
    AInvCore tm sx sy (astarInit sx sy gx gy) := by
  refine ⟨?_, ?_, ?_, ?_, ?_, ?_, ?_, ?_, ?_⟩
  · intro p v h
    rw [astarInit] at h
    rw [dget_cons] at h
    by_cases hp : ((sx, sy) : ℤ × ℤ) = p
    · rw [if_pos hp] at h
      have : (0 : ℤ) = v := by simpa using h
      omega
    · rw [if_neg hp] at h
      simp [dget] at h
  · rw [astarInit, dget_cons, if_pos rfl]
  · simp [astarInit]
  · intro p v h
    rw [astarInit, dget_cons] at h
    by_cases hp : ((sx, sy) : ℤ × ℤ) = p
    · rw [← hp]
      exact hw
    · rw [if_neg hp] at h
      simp [dget] at h
  · rfl
  · intro p v h
    rw [astarInit, dget_cons] at h
    by_cases hp : ((sx, sy) : ℤ × ℤ) = p
    · exact Or.inl hp.symm
    · rw [if_neg hp] at h
      simp [dget] at h
  · intro p q h
    simp [astarInit, dget] at h
  · intro e' he'
    have he : e' = (heuristic sx sy gx gy, sy, sx, 0) := by
      simpa [astarInit] using he'
    subst he
    refine ⟨0, ?_, le_refl _⟩
    simp [astarInit, dget_cons, nodeOf]
  · intro p v h
    rw [astarInit, dget_cons] at h
    by_cases hp : ((sx, sy) : ℤ × ℤ) = p
    · rw [if_pos hp] at h
      have : (0 : ℤ) = v := by simpa using h
      simp [astarInit]
      omega
    · rw [if_neg hp] at h
      simp [dget] at h

theorem astarInit_frontier (tm : TileMap) (sx sy gx gy : ℤ) :
    ∀ p v, dget (astarInit sx sy gx gy).g_costs p = some v →
      frontierOK tm gx gy (astarInit sx sy gx gy) p v := by
  intro p v h
  rw [astarInit, dget_cons] at h
  by_cases hp : ((sx, sy) : ℤ × ℤ) = p
  · rw [if_pos hp] at h
    have hv : (0 : ℤ) = v := by simpa using h
    exact Or.inl ⟨(heuristic sx sy gx gy, sy, sx, 0), by simp [astarInit],
      hp, hv⟩
  · rw [if_neg hp] at h
    simp [dget] at h

theorem astarInit_measure (tm : TileMap) (sx sy gx gy : ℤ) :
    measureM tm (astarInit sx sy gx gy) < astarFuel tm := by
  have hsum : sumG (astarInit sx sy gx gy).g_costs = 0 := by
    simp [astarInit, sumG]
  have hlen : (astarInit sx sy gx gy).g_costs.length = 1 := by
    simp [astarInit]
  have hopen : (astarInit sx sy gx gy).open_set.length = 1 := by
    simp [astarInit]
  have hmul : MAXG tm * (tm.width * tm.height - 1) ≤
      MAXG tm * (tm.width * tm.height) :=
    Nat.mul_le_mul_left _ (Nat.sub_le _ _)
  have h2MA : 2 * MAXG tm * (tm.width * tm.height) =
      2 * (MAXG tm * (tm.width * tm.height)) := by ring
  simp only [measureM, phiM, astarFuel, hsum, hlen, hopen]
  omega

/-- C6: for every tilemap and start/goal pair, every non-empty list
returned by `find_path` is a chain of legal 8-directional steps from the
start tile (each step onto a walkable tile, diagonal steps never cutting
corners, as captured by `stepOK`), every returned tile is walkable, the
last element is the goal and the start tile is excluded; the empty list
is returned exactly when no legal path exists or start equals goal. -/
theorem find_path_correct (tm : TileMap) (sx sy gx gy : ℤ) :
    (∀ p ∈ find_path tm sx sy gx gy, tm.is_walkable p.1 p.2 = true) ∧
    (find_path tm sx sy gx gy ≠ [] →
      List.Chain (stepOK tm) (sx, sy) (find_path tm sx sy gx gy) ∧
      (find_path tm sx sy gx gy).getLast? = some (gx, gy) ∧
      (sx, sy) ∉ find_path tm sx sy gx gy) ∧
    (find_path tm sx sy gx gy = [] ↔
      (¬ PathExists tm (sx, sy) (gx, gy) ∨ (sx = gx ∧ sy = gy))) := by
  by_cases h1 : sx = gx ∧ sy = gy
  · have hfp : find_path tm sx sy gx gy = [] := by
      simp only [find_path, if_pos h1]
    rw [hfp]
    refine ⟨by simp, fun h => absurd rfl h, ?_⟩
    constructor
    · intro _
      exact Or.inr h1
    · intro _
      rfl
  · by_cases h2 : tm.is_walkable sx sy = true
    · by_cases h3 : tm.is_walkable gx gy = true
      · have hsg : ¬((sx, sy) = ((gx, gy) : ℤ × ℤ)) := by
          intro hEq
          rw [Prod.mk.injEq] at hEq
          exact h1 hEq
        obtain ⟨r, hr, hre, hrne⟩ := astarLoop_ok tm sx sy gx gy hsg
          (astarFuel tm) (astarInit sx sy gx gy)
          (astarInit_core tm sx sy gx gy h2)
          (astarInit_frontier tm sx sy gx gy)
          (astarInit_measure tm sx sy gx gy)
        have hfp : find_path tm sx sy gx gy = r := by
          rw [find_path, if_neg h1, if_neg (by simp [h2]), if_neg (by simp [h3]),
            hr]
        rw [hfp]
        refine ⟨?_, hrne, ?_, ?_⟩
        · intro p hp
          by_cases hrn : r = []
          · subst hrn
            exact absurd hp (List.not_mem_nil _)
          · exact chain_walkable tm r (sx, sy) (hrne hrn).1 p hp
        · intro h
          exact Or.inl (hre h)
        · intro h
          rcases h with hnp | hse
          · by_contra hrn
            obtain ⟨hch, hlast, _⟩ := hrne hrn
            exact hnp ⟨r, hrn, hch, hlast⟩
          · exact absurd hse h1
      · have hfp : find_path tm sx sy gx gy = [] := by
          rw [find_path, if_neg h1, if_neg (by simp [h2]), if_pos (by simp [h3])]
        rw [hfp]
        refine ⟨by simp, fun h => absurd rfl h, ?_⟩
        constructor
        · intro _
          refine Or.inl ?_
          intro ⟨l, hne, hch, hlast⟩
          have hmem : ((gx, gy) : ℤ × ℤ) ∈ l := by
            obtain ⟨hne2, heq⟩ := List.mem_getLast?_eq_getLast
              (Option.mem_def.mpr hlast)
            rw [heq]
            exact List.getLast_mem hne2
          exact h3 (chain_walkable tm l (sx, sy) hch (gx, gy) hmem)
        · intro _
          rfl
    · have hfp : find_path tm sx sy gx gy = [] := by
        rw [find_path, if_neg h1, if_pos (by simp [h2])]
      rw [hfp]
      refine ⟨by simp, fun h => absurd rfl h, ?_⟩
      constructor
      · intro _
        refine Or.inl ?_
        intro ⟨l, hne, hch, hlast⟩
        cases l with
        | nil => exact hne rfl
        | cons b t =>
          rw [List.chain_cons] at hch
          exact h2 hch.1.1
      · intro _
        rfl

/-- Witness: on an all-dirt 3-by-3 map the path from `(0,0)` to `(2,2)`
returned by `find_path` is non-empty, is a legal step chain from the
start, ends at the goal and excludes the start. -/
theorem find_path_correct_witness :
    find_path (openMap 3 3) 0 0 2 2 ≠ [] ∧
    (List.Chain (stepOK (openMap 3 3)) (0, 0)
        (find_path (openMap 3 3) 0 0 2 2) ∧
      (find_path (openMap 3 3) 0 0 2 2).getLast? = some (2, 2) ∧
      ((0, 0) : ℤ × ℤ) ∉ find_path (openMap 3 3) 0 0 2 2) :=
  ⟨by decide, (find_path_correct (openMap 3 3) 0 0 2 2).2.1 (by decide)⟩

/-! ## Harvesting: list update arithmetic -/

theorem find?_set_pred_eq {α : Type} (p : α → Bool) :
    ∀ (l : List α) (i : ℕ) (e x : α), l[i]? = some e → p x = p e →
      ((l.set i x).find? p = l.find? p ∨
        ((l.set i x).find? p = some x ∧ l.find? p = some e)) := by
  intro l
  induction l with
  | nil => intro i e x he _; simp at he
  | cons a t ih =>
    intro i e x he hp
    cases i with
    | zero =>
      have hea : a = e := by simpa using he
      subst hea
      rw [List.set_cons_zero]
      by_cases hpa : p a = true
      · right
        constructor
        · exact List.find?_cons_of_pos _ (by rw [hp]; exact hpa)
        · exact List.find?_cons_of_pos _ hpa
      · left
        rw [List.find?_cons_of_neg _ (by rw [hp]; simpa using hpa),
          List.find?_cons_of_neg _ (by simpa using hpa)]
    | succ i =>
      rw [List.getElem?_cons_succ] at he
      rw [List.set_cons_succ]
      by_cases hpa : p a = true
      · left
        rw [List.find?_cons_of_pos _ hpa, List.find?_cons_of_pos _ hpa]
      · rcases ih i e x he hp with h' | h'
        · left
          rw [List.find?_cons_of_neg _ (by simpa using hpa),
            List.find?_cons_of_neg _ (by simpa using hpa), h']
        · right
          rw [List.find?_cons_of_neg _ (by simpa using hpa),
            List.find?_cons_of_neg _ (by simpa using hpa)]
          exact h'

theorem sum_map_set {α : Type} (f : α → ℤ) :
    ∀ (l : List α) (i : ℕ) (a x : α), l[i]? = some a →
      ((l.set i x).map f).sum = (l.map f).sum + (f x - f a) := by
  intro l
  induction l with
  | nil => intro i a x h; simp at h
  | cons b t ih =>
    intro i a x h
    cases i with
    | zero =>
      have hba : b = a := by simpa using h
      subst hba
      rw [List.set_cons_zero]
      simp only [List.map_cons, List.sum_cons]
      ring
    | succ i =>
      rw [List.getElem?_cons_succ] at h
      rw [List.set_cons_succ]
      simp only [List.map_cons, List.sum_cons]
      rw [ih i a x h]
      ring

theorem sum_map_updateIdx {α : Type} (f : α → ℤ) (g : α → α)
    (l : List α) (i : ℕ) (a : α) (h : l[i]? = some a) :
    ((updateIdx l i g).map f).sum = (l.map f).sum + (f (g a) - f a) := by
  unfold updateIdx
  rw [h]
  exact sum_map_set f l i a (g a) h

theorem sum_map_updateFirst {α : Type} (f : α → ℤ) (p : α → Bool)
    (g : α → α) :
    ∀ (l : List α) (c : α), l.find? p = some c →
      ((updateFirst p g l).map f).sum = (l.map f).sum + (f (g c) - f c) := by
  intro l
  induction l with
  | nil => intro c h; simp at h
  | cons a t ih =>
    intro c h
    by_cases hpa : p a = true
    · rw [List.find?_cons_of_pos _ hpa] at h
      have hca : a = c := by simpa using h
      subst hca
      simp only [updateFirst, if_pos hpa, List.map_cons, List.sum_cons]
      ring
    · rw [List.find?_cons_of_neg _ (by simpa using hpa)] at h
      simp only [updateFirst, if_neg hpa, List.map_cons, List.sum_cons]
      rw [ih c h]
      ring

theorem mem_updateFirst_find {α : Type} (p : α → Bool) (g : α → α) :
    ∀ (l : List α) (e : α), e ∈ updateFirst p g l →
      e ∈ l ∨ ∃ c, l.find? p = some c ∧ e = g c := by
  intro l
  induction l with
  | nil => intro e h; simp [updateFirst] at h
  | cons a t ih =>
    intro e h
    by_cases hpa : p a = true
    · simp only [updateFirst, if_pos hpa, List.mem_cons] at h
      rcases h with h | h
      · exact Or.inr ⟨a, List.find?_cons_of_pos _ hpa, h⟩
      · exact Or.inl (List.mem_cons_of_mem _ h)
    · simp only [updateFirst, if_neg hpa, List.mem_cons] at h
      rcases h with h | h
      · exact Or.inl (h ▸ List.mem_cons_self _ _)
      · rcases ih e h with h' | ⟨c, hc, he⟩
        · exact Or.inl (List.mem_cons_of_mem _ h')
        · exact Or.inr ⟨c,
            by rw [List.find?_cons_of_neg _ (by simpa using hpa)]; exact hc,
            he⟩

theorem mem_updateIdx_at {α : Type} {l : List α} {i : ℕ} {g : α → α}
    {e a : α} (h : e ∈ updateIdx l i g) (ha : l[i]? = some a) :
    e ∈ l ∨ e = g a := by
  unfold updateIdx at h
  rw [ha] at h
  exact List.mem_or_eq_of_mem_set h

theorem dictGet_cons (q : ℤ × ℤ) (rest : List (ℤ × ℤ)) (k : ℤ) :
    dictGet (q :: rest) k = if q.1 = k then q.2 else dictGet rest k := by
  by_cases hq : q.1 = k
  · rw [if_pos hq]
    unfold dictGet
    rw [List.find?_cons]
    have hb : (q.1 == k) = true := by simp [hq]
    rw [hb]
  · rw [if_neg hq]
    unfold dictGet
    rw [List.find?_cons]
    have hb : (q.1 == k) = false := by simp [hq]
    rw [hb]

theorem dictSum_dictSet_add :
    ∀ (d : List (ℤ × ℤ)) (k c : ℤ),
      dictSum (dictSet d k (dictGet d k + c)) = dictSum d + c := by
  intro d
  induction d with
  | nil =>
    intro k c
    simp [dictSet, dictSum, dictGet]
  | cons p rest ih =>
    intro k c
    by_cases hp : p.1 = k
    · have hg : dictGet (p :: rest) k = p.2 := by
        rw [dictGet_cons, if_pos hp]
      rw [hg]
      simp only [dictSet, if_pos hp, dictSum, List.map_cons, List.sum_cons]
      ring
    · have hg : dictGet (p :: rest) k = dictGet rest k := by
        rw [dictGet_cons, if_neg hp]
      rw [hg]
      simp only [dictSet, if_neg hp, dictSum, List.map_cons, List.sum_cons]
      have := ih k c
      simp only [dictSum] at this
      rw [this]
      ring

/-! ## Harvesting: step analysis -/

theorem pathfind_to_fields (s : GameState) (e : Entity) (gx gy : ℤ) :
    (pathfind_to s e gx gy).carrying = e.carrying ∧
    (pathfind_to s e gx gy).jelly_value = e.jelly_value ∧
    (pathfind_to s e gx gy).entity_type = e.entity_type := by
  simp only [pathfind_to]
  split <;> simp

theorem send_to_nearest_hive_fields (s : GameState) (e : Entity) :
    (send_to_nearest_hive s e).carrying = e.carrying ∧
    (send_to_nearest_hive s e).jelly_value = e.jelly_value ∧
    (send_to_nearest_hive s e).entity_type = e.entity_type := by
  unfold send_to_nearest_hive
  cases nearestHive s e with
  | none => simp
  | some h => exact pathfind_to_fields s e h.x h.y

theorem neutral_step (s : GameState) (i : ℕ) (g : Entity → Entity)
    (hg : ∀ a, (g a).carrying = a.carrying ∧
      (g a).jelly_value = a.jelly_value ∧ (g a).entity_type = a.entity_type)
    (hcar : ∀ a ∈ s.entities, a.entity_type = EntityType.ANT →
      0 ≤ a.carrying ∧ a.carrying ≤ ANT_CARRY_CAPACITY)
    (hjel : ∀ a ∈ s.entities, a.entity_type = EntityType.CORPSE →
      0 ≤ a.jelly_value) :
    jellyTotal { s with entities := updateIdx s.entities i g } =
      jellyTotal s ∧
    (∀ a ∈ updateIdx s.entities i g, a.entity_type = EntityType.ANT →
      0 ≤ a.carrying ∧ a.carrying ≤ ANT_CARRY_CAPACITY) ∧
    (∀ a ∈ updateIdx s.entities i g, a.entity_type = EntityType.CORPSE →
      0 ≤ a.jelly_value) := by
  refine ⟨?_, ?_, ?_⟩
  · unfold jellyTotal antCarrySum corpseJellySum
    dsimp only
    cases hidx : s.entities[i]? with
    | none =>
      have hsame : updateIdx s.entities i g = s.entities := by
        unfold updateIdx
        rw [hidx]
      rw [hsame]
    | some a =>
      have h1 := sum_map_updateIdx
        (fun e => if e.entity_type = EntityType.ANT then e.carrying else 0)
        g s.entities i a hidx
      have h2 := sum_map_updateIdx
        (fun e => if e.entity_type = EntityType.CORPSE then e.jelly_value
          else 0) g s.entities i a hidx
      obtain ⟨hcg, hjg, htg⟩ := hg a
      rw [h1, h2]
      simp only [htg, hcg, hjg]
      ring
  · intro a ha htype
    rcases mem_updateIdx_cases ha with h' | ⟨b, hb, hab⟩
    · exact hcar a h' htype
    · obtain ⟨hcg, hjg, htg⟩ := hg b
      subst hab
      rw [hcg]
      exact hcar b hb (by rw [← htg]; exact htype)
  · intro a ha htype
    rcases mem_updateIdx_cases ha with h' | ⟨b, hb, hab⟩
    · exact hjel a h' htype
    · obtain ⟨hcg, hjg, htg⟩ := hg b
      subst hab
      rw [hjg]
      exact hjel b hb (by rw [← htg]; exact htype)

theorem transfer_core (s : GameState) (i : ℕ) (e corpse : Entity) (t : ℤ)
    (he : s.entities[i]? = some e) (hant : e.entity_type = EntityType.ANT)
    (hfind : s.entities.find?
      (fun c => c.entity_id == e.target_entity_id) = some corpse)
    (hcty : corpse.entity_type = EntityType.CORPSE)
    (hpos : 0 < t) (hcan : t ≤ ANT_CARRY_CAPACITY - e.carrying)
    (havail : t ≤ corpse.jelly_value)
    (hcar : ∀ a ∈ s.entities, a.entity_type = EntityType.ANT →
      0 ≤ a.carrying ∧ a.carrying ≤ ANT_CARRY_CAPACITY)
    (hjel : ∀ a ∈ s.entities, a.entity_type = EntityType.CORPSE →
      0 ≤ a.jelly_value) :
    jellyTotal { s with
        entities := updateFirst
          (fun c => c.entity_id == e.target_entity_id)
          (fun c => { c with jelly_value := c.jelly_value - t })
          (updateIdx s.entities i (fun a =>
            { a with carrying := a.carrying + t })) } = jellyTotal s ∧
    (∀ a ∈ updateFirst (fun c => c.entity_id == e.target_entity_id)
        (fun c => { c with jelly_value := c.jelly_value - t })
        (updateIdx s.entities i (fun a =>
          { a with carrying := a.carrying + t })),
      a.entity_type = EntityType.ANT →
        0 ≤ a.carrying ∧ a.carrying ≤ ANT_CARRY_CAPACITY) ∧
    (∀ a ∈ updateFirst (fun c => c.entity_id == e.target_entity_id)
        (fun c => { c with jelly_value := c.jelly_value - t })
        (updateIdx s.entities i (fun a =>
          { a with carrying := a.carrying + t })),
      a.entity_type = EntityType.CORPSE → 0 ≤ a.jelly_value) := by
  have hmem_e : e ∈ s.entities := List.getElem?_mem he
  have hmem_c : corpse ∈ s.entities := List.mem_of_find?_eq_some hfind
  have hbe := hcar e hmem_e hant
  have hfind2 : (updateIdx s.entities i (fun a =>
      { a with carrying := a.carrying + t })).find?
      (fun c => c.entity_id == e.target_entity_id) = some corpse := by
    have hsame : updateIdx s.entities i (fun a =>
        { a with carrying := a.carrying + t }) =
        s.entities.set i ({ e with carrying := e.carrying + t }) := by
      unfold updateIdx
      rw [he]
    rw [hsame]
    rcases find?_set_pred_eq (fun c => c.entity_id == e.target_entity_id)
      s.entities i e ({ e with carrying := e.carrying + t }) he rfl with
      h' | ⟨_, h2⟩
    · rw [h', hfind]
    · rw [hfind] at h2
      have hce : e = corpse := by simpa using h2.symm
      rw [← hce] at hcty
      rw [hant] at hcty
      exact absurd hcty (by decide)
  refine ⟨?_, ?_, ?_⟩
  · unfold jellyTotal antCarrySum corpseJellySum
    dsimp only
    have hA1 := sum_map_updateIdx
      (fun a => if a.entity_type = EntityType.ANT then a.carrying else 0)
      (fun a => { a with carrying := a.carrying + t }) s.entities i e he
    have hC1 := sum_map_updateIdx
      (fun a => if a.entity_type = EntityType.CORPSE then a.jelly_value
        else 0)
      (fun a => { a with carrying := a.carrying + t }) s.entities i e he
    have hA2 := sum_map_updateFirst
      (fun a => if a.entity_type = EntityType.ANT then a.carrying else 0)
      (fun c => c.entity_id == e.target_entity_id)
      (fun c => { c with jelly_value := c.jelly_value - t }) _ corpse hfind2
    have hC2 := sum_map_updateFirst
      (fun a => if a.entity_type = EntityType.CORPSE then a.jelly_value
        else 0)
      (fun c => c.entity_id == e.target_entity_id)
      (fun c => { c with jelly_value := c.jelly_value - t }) _ corpse hfind2
    rw [hA2, hC2, hA1, hC1]
    simp [hant, hcty]
    try ring
  · intro a ha htype
    rcases mem_updateFirst_find _ _ _ a ha with h' | ⟨c, hcf, hac⟩
    · rcases mem_updateIdx_at h' he with h'' | h''
      · exact hcar a h'' htype
      · subst h''
        simp only at htype ⊢
        have := hbe
        omega
    · rw [hfind2] at hcf
      have hcc : corpse = c := by simpa using hcf
      subst hcc
      subst hac
      simp only at htype ⊢
      rw [hcty] at htype
      exact absurd htype (by decide)
  · intro a ha htype
    rcases mem_updateFirst_find _ _ _ a ha with h' | ⟨c, hcf, hac⟩
    · rcases mem_updateIdx_at h' he with h'' | h''
      · exact hjel a h'' htype
      · subst h''
        simp only at htype
        rw [hant] at htype
        exact absurd htype (by decide)
    · rw [hfind2] at hcf
      have hcc : corpse = c := by simpa using hcf
      subst hcc
      subst hac
      simp only
      omega

theorem try_extract_props (s : GameState) (i : ℕ) (e : Entity)
    (he : s.entities[i]? = some e) (hant : e.entity_type = EntityType.ANT)
    (hcar : ∀ a ∈ s.entities, a.entity_type = EntityType.ANT →
      0 ≤ a.carrying ∧ a.carrying ≤ ANT_CARRY_CAPACITY)
    (hjel : ∀ a ∈ s.entities, a.entity_type = EntityType.CORPSE →
      0 ≤ a.jelly_value) :
    jellyTotal (try_extract s i e) = jellyTotal s ∧
    (∀ a ∈ (try_extract s i e).entities, a.entity_type = EntityType.ANT →
      0 ≤ a.carrying ∧ a.carrying ≤ ANT_CARRY_CAPACITY) ∧
    (∀ a ∈ (try_extract s i e).entities,
      a.entity_type = EntityType.CORPSE → 0 ≤ a.jelly_value) := by
  rcases hc : get_entity s e.target_entity_id with _ | corpse
  · simp only [try_extract, hc]
    exact neutral_step s i _ (fun a => ⟨rfl, rfl, rfl⟩) hcar hjel
  · simp only [try_extract, hc]
    by_cases hne : corpse.entity_type ≠ EntityType.CORPSE
    · rw [if_pos hne]
      exact neutral_step s i _ (fun a => ⟨rfl, rfl, rfl⟩) hcar hjel
    · rw [if_neg hne]
      have hcty : corpse.entity_type = EntityType.CORPSE := not_not.mp hne
      by_cases hd : (e.x - corpse.x) * (e.x - corpse.x) +
          (e.y - corpse.y) * (e.y - corpse.y) > HARVEST_RANGE_SQ
      · rw [if_pos hd]
        exact neutral_step s i _
          (fun a => pathfind_to_fields s a corpse.x corpse.y) hcar hjel
      · rw [if_neg hd]
        have hfind : s.entities.find?
            (fun c => c.entity_id == e.target_entity_id) = some corpse := hc
        by_cases hpos : 0 < transferAmt s e corpse
        · have hcan : transferAmt s e corpse ≤
              ANT_CARRY_CAPACITY - e.carrying :=
            le_trans (min_le_right _ _) (min_le_left _ _)
          have havail : transferAmt s e corpse ≤ corpse.jelly_value :=
            le_trans (min_le_right _ _) (min_le_right _ _)
          have hT := transfer_core s i e corpse (transferAmt s e corpse)
            he hant hfind hcty hpos hcan havail hcar hjel
          simp only [if_pos hpos]
          by_cases hsend : ANT_CARRY_CAPACITY ≤
              e.carrying + transferAmt s e corpse ∨
              corpse.jelly_value - transferAmt s e corpse ≤ 0
          · rw [if_pos hsend]
            have hN := neutral_step
              { s with
                  entities := updateFirst
                    (fun c => c.entity_id == e.target_entity_id)
                    (fun c => { c with jelly_value :=
                      c.jelly_value - transferAmt s e corpse })
                    (updateIdx s.entities i (fun a =>
                      { a with carrying :=
                        a.carrying + transferAmt s e corpse })) } i
              (fun a => send_to_nearest_hive
                { s with
                  entities := updateFirst
                    (fun c => c.entity_id == e.target_entity_id)
                    (fun c => { c with jelly_value :=
                      c.jelly_value - transferAmt s e corpse })
                    (updateIdx s.entities i (fun a =>
                      { a with carrying :=
                        a.carrying + transferAmt s e corpse })) } a)
              (fun a => send_to_nearest_hive_fields
                { s with
                  entities := updateFirst
                    (fun c => c.entity_id == e.target_entity_id)
                    (fun c => { c with jelly_value :=
                      c.jelly_value - transferAmt s e corpse })
                    (updateIdx s.entities i (fun a =>
                      { a with carrying :=
                        a.carrying + transferAmt s e corpse })) } a)
              hT.2.1 hT.2.2
            exact ⟨hN.1.trans hT.1, hN.2.1, hN.2.2⟩
          · rw [if_neg hsend]
            exact hT
        · simp only [if_neg hpos]
          by_cases hsend : ANT_CARRY_CAPACITY ≤ e.carrying + 0 ∨
              corpse.jelly_value - 0 ≤ 0
          · rw [if_pos hsend]
            have hN := neutral_step s i
              (fun a => send_to_nearest_hive s a)
              (fun a => send_to_nearest_hive_fields s a) hcar hjel
            exact ⟨hN.1, hN.2.1, hN.2.2⟩
          · rw [if_neg hsend]
            exact ⟨rfl, hcar, hjel⟩

theorem try_deposit_props (s : GameState) (i : ℕ) (e : Entity)
    (he : s.entities[i]? = some e) (hant : e.entity_type = EntityType.ANT)
    (hcar : ∀ a ∈ s.entities, a.entity_type = EntityType.ANT →
      0 ≤ a.carrying ∧ a.carrying ≤ ANT_CARRY_CAPACITY)
    (hjel : ∀ a ∈ s.entities, a.entity_type = EntityType.CORPSE →
      0 ≤ a.jelly_value) :
    jellyTotal (try_deposit s i e) = jellyTotal s ∧
    (∀ a ∈ (try_deposit s i e).entities, a.entity_type = EntityType.ANT →
      0 ≤ a.carrying ∧ a.carrying ≤ ANT_CARRY_CAPACITY) ∧
    (∀ a ∈ (try_deposit s i e).entities,
      a.entity_type = EntityType.CORPSE → 0 ≤ a.jelly_value) := by
  rcases hnh : nearestHive s e with _ | h
  · simp only [try_deposit, hnh]
    exact neutral_step s i _ (fun a => ⟨rfl, rfl, rfl⟩) hcar hjel
  · simp only [try_deposit, hnh]
    by_cases hd : (e.x - h.x) * (e.x - h.x) + (e.y - h.y) * (e.y - h.y) >
        HARVEST_RANGE_SQ
    · rw [if_pos hd]
      exact neutral_step s i _ (fun a => pathfind_to_fields s a h.x h.y)
        hcar hjel
    · rw [if_neg hd]
      have hs1 : jellyTotal { s with
          player_jelly := dictSet s.player_jelly e.player_id
            (dictGet s.player_jelly e.player_id + e.carrying),
          entities := updateIdx s.entities i (fun a =>
            { a with carrying := 0 }) } = jellyTotal s ∧
          (∀ a ∈ updateIdx s.entities i (fun a => { a with carrying := 0 }),
            a.entity_type = EntityType.ANT →
              0 ≤ a.carrying ∧ a.carrying ≤ ANT_CARRY_CAPACITY) ∧
          (∀ a ∈ updateIdx s.entities i (fun a => { a with carrying := 0 }),
            a.entity_type = EntityType.CORPSE → 0 ≤ a.jelly_value) := by
        refine ⟨?_, ?_, ?_⟩
        · unfold jellyTotal antCarrySum corpseJellySum
          dsimp only
          rw [dictSum_dictSet_add]
          rw [sum_map_updateIdx (fun a =>
              if a.entity_type = EntityType.ANT then a.carrying else 0)
            (fun a => { a with carrying := 0 }) s.entities i e he]
          rw [sum_map_updateIdx (fun a =>
              if a.entity_type = EntityType.CORPSE then a.jelly_value
              else 0)
            (fun a => { a with carrying := 0 }) s.entities i e he]
          simp [hant]
          ring
        · intro a ha htype
          rcases mem_updateIdx_at ha he with h' | h'
          · exact hcar a h' htype
          · subst h'
            simp only at htype ⊢
            constructor
            · omega
            · simp [ANT_CARRY_CAPACITY]
        · intro a ha htype
          rcases mem_updateIdx_at ha he with h' | h'
          · exact hjel a h' htype
          · subst h'
            simp only at htype ⊢
            exact hjel e (List.getElem?_mem he) htype
      rcases hc1 : get_entity { s with
          player_jelly := dictSet s.player_jelly e.player_id
            (dictGet s.player_jelly e.player_id + e.carrying),
          entities := updateIdx s.entities i (fun a =>
            { a with carrying := 0 }) } e.target_entity_id with _ | corpse
      · simp only [hc1]
        have hN := neutral_step { s with
            player_jelly := dictSet s.player_jelly e.player_id
              (dictGet s.player_jelly e.player_id + e.carrying),
            entities := updateIdx s.entities i (fun a =>
              { a with carrying := 0 }) } i
          (fun a =>
            { a with state := EntityState.IDLE, target_entity_id := -1 })
          (fun a => ⟨rfl, rfl, rfl⟩) hs1.2.1 hs1.2.2
        exact ⟨hN.1.trans hs1.1, hN.2.1, hN.2.2⟩
      · simp only [hc1]
        by_cases hcj : corpse.entity_type = EntityType.CORPSE ∧
            0 < corpse.jelly_value
        · rw [if_pos hcj]
          have hN := neutral_step { s with
              player_jelly := dictSet s.player_jelly e.player_id
                (dictGet s.player_jelly e.player_id + e.carrying),
              entities := updateIdx s.entities i (fun a =>
                { a with carrying := 0 }) } i
            (fun a => pathfind_to { s with
              player_jelly := dictSet s.player_jelly e.player_id
                (dictGet s.player_jelly e.player_id + e.carrying),
              entities := updateIdx s.entities i (fun a =>
                { a with carrying := 0 }) } a corpse.x corpse.y)
            (fun a => pathfind_to_fields _ a corpse.x corpse.y)
            hs1.2.1 hs1.2.2
          exact ⟨hN.1.trans hs1.1, hN.2.1, hN.2.2⟩
        · rw [if_neg hcj]
          have hN := neutral_step { s with
              player_jelly := dictSet s.player_jelly e.player_id
                (dictGet s.player_jelly e.player_id + e.carrying),
              entities := updateIdx s.entities i (fun a =>
                { a with carrying := 0 }) } i
            (fun a =>
              { a with state := EntityState.IDLE, target_entity_id := -1 })
            (fun a => ⟨rfl, rfl, rfl⟩) hs1.2.1 hs1.2.2
          exact ⟨hN.1.trans hs1.1, hN.2.1, hN.2.2⟩

theorem harvestStep_props (s : GameState) (i : ℕ)
    (hcar : ∀ a ∈ s.entities, a.entity_type = EntityType.ANT →
      0 ≤ a.carrying ∧ a.carrying ≤ ANT_CARRY_CAPACITY)
    (hjel : ∀ a ∈ s.entities, a.entity_type = EntityType.CORPSE →
      0 ≤ a.jelly_value) :
    jellyTotal (harvestStep s i) = jellyTotal s ∧
    (∀ a ∈ (harvestStep s i).entities, a.entity_type = EntityType.ANT →
      0 ≤ a.carrying ∧ a.carrying ≤ ANT_CARRY_CAPACITY) ∧
    (∀ a ∈ (harvestStep s i).entities,
      a.entity_type = EntityType.CORPSE → 0 ≤ a.jelly_value) := by
  rcases he : s.entities[i]? with _ | e
  · simp only [harvestStep, he]
    exact ⟨by trivial, hcar, hjel⟩
  · simp only [harvestStep, he]
    by_cases hguard : e.state = EntityState.HARVESTING ∧
        e.entity_type = EntityType.ANT ∧ e.is_moving = false ∧ e.path = []
    · rw [if_pos hguard]
      have hant := hguard.2.1
      rcases hc : get_entity s e.target_entity_id with _ | corpse
      · simp only [hc]
        by_cases hcar0 : 0 < e.carrying
        · rw [if_pos hcar0]
          exact try_deposit_props s i e he hant hcar hjel
        · rw [if_neg hcar0]
          exact neutral_step s i _ (fun a => ⟨rfl, rfl, rfl⟩) hcar hjel
      · simp only [hc]
        by_cases hcond : e.carrying < ANT_CARRY_CAPACITY ∧
            corpse.entity_type = EntityType.CORPSE ∧ 0 < corpse.jelly_value
        · rw [if_pos hcond]
          by_cases hdist : (e.x - corpse.x) * (e.x - corpse.x) +
              (e.y - corpse.y) * (e.y - corpse.y) ≤ HARVEST_RANGE_SQ
          · rw [if_pos hdist]
            exact try_extract_props s i e he hant hcar hjel
          · rw [if_neg hdist]
            exact neutral_step s i _
              (fun a => pathfind_to_fields s a corpse.x corpse.y) hcar hjel
        · rw [if_neg hcond]
          by_cases hcar0 : 0 < e.carrying
          · rw [if_pos hcar0]
            exact try_deposit_props s i e he hant hcar hjel
          · rw [if_neg hcar0]
            exact neutral_step s i _ (fun a => ⟨rfl, rfl, rfl⟩) hcar hjel
    · rw [if_neg hguard]
      exact ⟨rfl, hcar, hjel⟩

theorem harvestFold_props :
    ∀ (idxs : List ℕ) (s : GameState),
      (∀ a ∈ s.entities, a.entity_type = EntityType.ANT →
        0 ≤ a.carrying ∧ a.carrying ≤ ANT_CARRY_CAPACITY) →
      (∀ a ∈ s.entities, a.entity_type = EntityType.CORPSE →
        0 ≤ a.jelly_value) →
      jellyTotal (idxs.foldl harvestStep s) = jellyTotal s ∧
      (∀ a ∈ (idxs.foldl harvestStep s).entities,
        a.entity_type = EntityType.ANT →
          0 ≤ a.carrying ∧ a.carrying ≤ ANT_CARRY_CAPACITY) ∧
      (∀ a ∈ (idxs.foldl harvestStep s).entities,
        a.entity_type = EntityType.CORPSE → 0 ≤ a.jelly_value) := by
  intro idxs
  induction idxs with
  | nil => intro s hcar hjel; exact ⟨rfl, hcar, hjel⟩
  | cons i rest ih =>
    intro s hcar hjel
    rw [List.foldl_cons]
    have hstep := harvestStep_props s i hcar hjel
    have hrest := ih (harvestStep s i) hstep.2.1 hstep.2.2
    exact ⟨hrest.1.trans hstep.1, hrest.2.1, hrest.2.2⟩

/-- C10: one run of the harvesting pass conserves the total jelly
(banked per player, carried by ants, remaining in corpses), keeps every
ant's carried amount within `[0, ANT_CARRY_CAPACITY]`, and never makes a
corpse's jelly value negative, for every state whose ants and corpses
start within those bounds. -/
theorem process_harvesting_conserves (s : GameState)
    (hcar : ∀ a ∈ s.entities, a.entity_type = EntityType.ANT →
      0 ≤ a.carrying ∧ a.carrying ≤ ANT_CARRY_CAPACITY)
    (hjel : ∀ a ∈ s.entities, a.entity_type = EntityType.CORPSE →
      0 ≤ a.jelly_value) :
    jellyTotal (process_harvesting s) = jellyTotal s ∧
    (∀ a ∈ (process_harvesting s).entities,
      a.entity_type = EntityType.ANT →
        0 ≤ a.carrying ∧ a.carrying ≤ ANT_CARRY_CAPACITY) ∧
    (∀ a ∈ (process_harvesting s).entities,
      a.entity_type = EntityType.CORPSE → 0 ≤ a.jelly_value) :=
  harvestFold_props (List.range s.entities.length) s hcar hjel

/-- Witness: in the one-ant-one-corpse scenario the harvesting pass
keeps the total at 5 and the bounds hold before and after. -/
theorem process_harvesting_conserves_witness :
    (∀ a ∈ harvestDemoState.entities, a.entity_type = EntityType.ANT →
      0 ≤ a.carrying ∧ a.carrying ≤ ANT_CARRY_CAPACITY) ∧
    jellyTotal (process_harvesting harvestDemoState) =
      jellyTotal harvestDemoState :=
  ⟨by decide,
    (process_harvesting_conserves harvestDemoState (by decide)
      (by decide)).1⟩
